import Mathlib

/-
  Verification development for the ai-video-script-pipeline repository.

  The Lean definitions below are a shallow embedding of the Python sources:

    src/utils/text_utils.py            (normalize_word)
    src/utils/exact_sequence_matcher.py (ExactSequenceMatcher.find_match)
    src/services/id_mapping_service.py  (IdMappingService.run)
    src/services/chunker_service.py     (ChunkerService)
    src/services/offline_indexer_service.py (OfflineIndexerService)
    src/services/output_formatter_service.py (OutputFormatterService)
    pipeline_server.py                  (process_single_concept, generate_shorts stage 3)

  Conventions used throughout the embedding:
  - Python dicts with a fixed key set become structures; a key that can be
    absent or None becomes an Option field.
  - Python floats (timestamps) are modelled as rationals; the only float
    operations the embedded code performs are copying, subtraction, and
    round(x, 2), which is modelled as rounding to the nearest multiple
    of 1/100.
  - Python lists are Lean lists; slicing l[a:b] keeps its clamping
    behaviour (pySlice below).
  - for-loops with early return become fuel-indexed recursive functions;
    the fuel always dominates the number of remaining iterations, so the
    fuel-exhaustion branch mirrors the fall-through of the Python loop.
  - Exceptions are modelled with Except where a claim is about catching
    them; code that cannot raise in the embedding is total.
-/

/- ===================== src/utils/text_utils.py ===================== -/

/-- ASCII lower-casing of one character, modelling str.lower for the
    character range the pipeline manipulates. -/
def asciiLower (c : Char) : Char :=
  if 'A' ≤ c ∧ c ≤ 'Z' then Char.ofNat (c.toNat + 32) else c

/-- The characters of Python string.punctuation. Quote, apostrophe,
    backquote and braces are spelled via their code points. -/
def punctuationChars : List Char :=
  ['!', Char.ofNat 34, '#', '$', '%', '&', Char.ofNat 39, '(', ')', '*', '+', ',', '-', '.', '/',
   ':', ';', '<', '=', '>', '?', '@', '[', '\\', ']', '^', '_', Char.ofNat 96,
   Char.ofNat 123, '|', Char.ofNat 125, '~']

/-- normalize_word from src/utils/text_utils.py: lowercase the text and
    delete every punctuation character. -/
def normalize_word (text : String) : String :=
  ⟨(text.data.map asciiLower).filter (fun c => ¬ punctuationChars.contains c)⟩

/-- Python whitespace characters recognised by str.split and str.strip. -/
def isSpaceChar (c : Char) : Bool :=
  c == ' ' || c == '\t' || c == '\n' || c == '\x0d' || c == '\x0b' || c == '\x0c'

/-- Helper for pySplit: scans characters, accumulating the current word
    reversed; whitespace runs separate words and produce no empties. -/
def splitWsAux : List Char → List Char → List String
  | [], acc => if acc.isEmpty then [] else [⟨acc.reverse⟩]
  | c :: rest, acc =>
    if isSpaceChar c then
      if acc.isEmpty then splitWsAux rest []
      else ⟨acc.reverse⟩ :: splitWsAux rest []
    else splitWsAux rest (c :: acc)

/-- Python str.split with no separator: split on whitespace runs and
    discard empty pieces. -/
def pySplit (s : String) : List String := splitWsAux s.data []

/-- Python str.strip with no argument: remove leading and trailing
    whitespace. -/
def pyStrip (s : String) : String :=
  ⟨((s.data.dropWhile isSpaceChar).reverse.dropWhile isSpaceChar).reverse⟩

/- ============== src/utils/exact_sequence_matcher.py ================ -/

/-- Normalized word record handed to the sequence matcher: an id (the
    internal transcript id for block words, an enumeration index for chunk
    words) and the normalized text. -/
structure NWord where
  id : Nat
  text : String
  deriving DecidableEq, Repr

/-- Return value of ExactSequenceMatcher.find_match: the two original ids
    bounding the located range. -/
structure MatchResult where
  start_word_index : Nat
  end_word_index : Nat
  deriving DecidableEq, Repr

/-- Python list.index on a list of strings: the first position holding t,
    with None standing for the raised ValueError. -/
def listIndex (t : String) : List String → Option Nat
  | [] => none
  | x :: xs => if x = t then some 0 else (listIndex t xs).map (fun n => n + 1)

/-- Reading block_words i .id and block_words (i + chunk_len - 1) .id once
    a boundary match has been accepted. Both positions are in range at
    every call site, so the none arm is unreachable. -/
def extractIds (block_words : List NWord) (chunk_len i : Nat) : Option MatchResult :=
  match block_words.get? i, block_words.get? (i + chunk_len - 1) with
  | some ws, some we => some ⟨ws.id, we.id⟩
  | _, _ => none

/-- The candidate-position loop of find_match for chunks of length ≥ 2.
    The fuel argument counts the remaining candidate start positions, so
    the initial fuel block_len + 1 - chunk_len reproduces the Python range
    including its emptiness when the block is shorter than the chunk. -/
def boundaryScan (block_words : List NWord) (block_text_list first_pair last_pair : List String)
    (chunk_len : Nat) : Nat → Nat → Option MatchResult
  | _, 0 => none
  | i, fuel + 1 =>
    if (block_text_list.drop i).take 2 = first_pair then
      if (block_text_list.drop (i + (chunk_len - 2))).take 2 = last_pair then
        extractIds block_words chunk_len i
      else boundaryScan block_words block_text_list first_pair last_pair chunk_len (i + 1) fuel
    else boundaryScan block_words block_text_list first_pair last_pair chunk_len (i + 1) fuel

/-- ExactSequenceMatcher.find_match from src/utils/exact_sequence_matcher.py:
    empty inputs fail; single-word chunks use list.index; longer chunks use
    the boundary-pair scan, first match wins. -/
def ExactSequenceMatcher.find_match (chunk_words block_words : List NWord) :
    Option MatchResult :=
  match chunk_words, block_words with
  | [], _ => none
  | _ :: _, [] => none
  | c :: cs, _ :: _ =>
    let block_text_list := block_words.map NWord.text
    if cs.isEmpty then
      match listIndex c.text block_text_list with
      | some match_index => (block_words.get? match_index).map (fun w => ⟨w.id, w.id⟩)
      | none => none
    else
      let chunk_text_list := (c :: cs).map NWord.text
      let chunk_len := (c :: cs).length
      boundaryScan block_words block_text_list (chunk_text_list.take 2)
        (chunk_text_list.drop (chunk_len - 2)) chunk_len 0
        (block_text_list.length + 1 - chunk_len)

/-- Spec-words formulation of the locator algorithm for chunks of length
    k ≥ 2 (spec section 4.3): among all candidate start positions i with
    i + k ≤ block length, return for the first i whose two-word window at
    i equals the chunk prefix and whose two-word window at i + (k - 2)
    equals the chunk suffix the ids at positions i and i + k - 1; return
    not_found when no candidate qualifies. -/
def SequenceLocator.find_spec (chunk_words block_words : List NWord) : Option MatchResult :=
  let k := chunk_words.length
  let ct := chunk_words.map NWord.text
  let bt := block_words.map NWord.text
  ((List.range (bt.length + 1)).find? fun j =>
      decide (j + k ≤ bt.length) && decide ((bt.drop j).take 2 = ct.take 2) &&
        decide ((bt.drop (j + (k - 2))).take 2 = ct.drop (k - 2))).bind
    (fun j => extractIds block_words k j)

/-- The matching predicate of the locator at one block position, used to
    phrase left-most-match statements: single-word text equality for
    length-1 chunks, the in-range boundary-pair test for longer chunks. -/
def matchesAt (ct bt : List String) (i : Nat) : Bool :=
  if ct.length = 0 then false
  else if ct.length = 1 then bt.get? i == ct.get? 0
  else decide (i + ct.length ≤ bt.length) && decide ((bt.drop i).take 2 = ct.take 2) &&
    decide ((bt.drop (i + (ct.length - 2))).take 2 = ct.drop (ct.length - 2))

/- ============== src/services/id_mapping_service.py ================= -/

/-- One item of the client transcript before dehydration: the original
    (possibly absent) client id, plus text, timing, type and speaker. -/
structure RawItem where
  oid : Option String
  text : String
  start : ℚ
  end_ : ℚ
  type : String
  speaker_id : Option String
  deriving DecidableEq, Repr

/-- One transcript token after dehydration: the sequential internal
    integer id replaces the original one. -/
structure Token where
  id : Nat
  text : String
  start : ℚ
  end_ : ℚ
  type : String
  speaker_id : Option String
  deriving DecidableEq, Repr

/-- The synthetic spacing object inserted after an original item. It
    carries no original id and inherits the end time of the preceding
    item as both its start and its end. -/
def spaceObj (item : RawItem) : RawItem :=
  { oid := none, text := " ", start := item.end_, end_ := item.end_, type := "spacing",
    speaker_id := item.speaker_id }

/-- Step 1 of IdMappingService.run: one spacing object after every
    original item. -/
def withSpacing : List RawItem → List RawItem
  | [] => []
  | item :: rest => item :: spaceObj item :: withSpacing rest

/-- Step 2 of IdMappingService.run, id side: walk the expanded list from
    index n, giving every object its enumeration index as id. -/
def assignIdsFrom (n : Nat) : List RawItem → List Token
  | [] => []
  | item :: rest =>
    ⟨n, item.text, item.start, item.end_, item.type, item.speaker_id⟩ :: assignIdsFrom (n + 1) rest

/-- Step 2 of IdMappingService.run, map side: record new_id -> original_id
    for every object whose original id is not None. -/
def buildIdMapFrom (n : Nat) : List RawItem → List (Nat × String)
  | [] => []
  | item :: rest =>
    match item.oid with
    | some original_id => (n, original_id) :: buildIdMapFrom (n + 1) rest
    | none => buildIdMapFrom (n + 1) rest

/-- The per-item body of the spacing-adjustment loop in step 3: a spacing
    object that is not the last element of the filtered list gets its end
    overwritten with the start of the next surviving object. -/
def adjustSpacingAt (pre : List Token) (i : Nat) (item : Token) : Token :=
  if item.type = "spacing" ∧ i < pre.length - 1 then
    match pre.get? (i + 1) with
    | some next_item => { item with end_ := next_item.start }
    | none => item
  else item

/-- The spacing-adjustment loop of step 3, walking the filtered list with
    its enumeration index. -/
def adjustSpacingFrom (pre : List Token) (i : Nat) : List Token → List Token
  | [] => []
  | item :: rest => adjustSpacingAt pre i item :: adjustSpacingFrom pre (i + 1) rest

/-- final_textual_list of step 3: the filtered list after the in-place
    spacing adjustment. -/
def finalTextualList (pre : List Token) : List Token := adjustSpacingFrom pre 0 pre

/-- In the Python code textual_objects_list_pre holds references to the
    same dict objects as full_objects_list, so writing item end inside the
    step 3 loop is visible through full_objects_list as well. This helper
    reproduces that sharing: a token of the full list that also sits in the
    adjusted textual list (identified by its unique sequential id) is
    replaced by its adjusted version. -/
def mutateShared (adjusted : List Token) (t : Token) : Token :=
  match adjusted.find? (fun a => a.id == t.id) with
  | some a => a
  | none => t

/-- The three outputs of IdMappingService.run. -/
structure DehydrateResult where
  textual_transcript : List Token
  full_objects_transcript : List Token
  id_map : List (Nat × String)
  deriving DecidableEq, Repr

/-- IdMappingService.run from src/services/id_mapping_service.py, acting
    on the words list of the transcript object (every other key of the
    transcript dict is passed through unchanged by the Python code and is
    not modelled). -/
def IdMappingService.run (transcript_words : List RawItem) : DehydrateResult :=
  let temp_list_with_spacing := withSpacing transcript_words
  let full_objects_list := assignIdsFrom 0 temp_list_with_spacing
  let id_map := buildIdMapFrom 0 temp_list_with_spacing
  let textual_objects_list_pre := full_objects_list.filter (fun item => item.type != "pause")
  let final_textual_list := finalTextualList textual_objects_list_pre
  let full_after_aliasing := full_objects_list.map (mutateShared final_textual_list)
  ⟨final_textual_list, full_after_aliasing, id_map⟩

/- ================ src/services/chunker_service.py ================== -/

/-- Python int() applied to a rational: truncation toward zero. -/
def pyInt (q : ℚ) : Int := if 0 ≤ q then ⌊q⌋ else -(⌊-q⌋)

/-- The configuration state of a constructed ChunkerService. -/
structure ChunkerCfg where
  block_max_words : Int
  soft_word_limit : Int
  deriving DecidableEq, Repr

/-- ChunkerService.__init__: soft_word_limit = int(block_max_words * ratio),
    then fail fast when block_max_words ≤ 0. The named float parameter
    soft_limit_ratio of the source appears here as limit_frac. -/
def ChunkerService.mk (block_max_words : Int) (limit_frac : ℚ) : Except String ChunkerCfg :=
  let soft_word_limit := pyInt ((block_max_words : ℚ) * limit_frac)
  if block_max_words ≤ 0 then Except.error "block_max_words must be a positive integer."
  else Except.ok ⟨block_max_words, soft_word_limit⟩

/-- Python slicing l[a:b] for non-negative bounds, with clamping. -/
def pySlice {α : Type} (l : List α) (a b : Nat) : List α := (l.drop a).take (b - a)

/-- The sentence-boundary test of _find_block_end: the stripped text ends
    with a period, question mark or exclamation mark. -/
def endsSentencePunct (s : String) : Bool :=
  match (pyStrip s).data.getLast? with
  | some c => c == '.' || c == '?' || c == '!'
  | none => false

/-- ChunkerService._include_trailing_space_if_present. -/
def ChunkerService._include_trailing_space_if_present (index : Nat) (words : List Token) : Nat :=
  match words.get? (index + 1) with
  | some w => if w.type == "spacing" then index + 1 else index
  | none => index

/-- The scanning loop of _find_block_end, with the speaker of the first
    word-type token already fixed. Fuel bounds the remaining loop
    iterations; the initial fuel words.length - start dominates them, so
    the fuel-0 arm coincides with the loop falling through to
    len(words) - 1. -/
def ChunkerService.findEndLoop (cfg : ChunkerCfg) (words : List Token)
    (initial_speaker : String) : Nat → Nat → Nat → Nat
  | 0, _, _ => words.length - 1
  | fuel + 1, i, word_count =>
    match words.get? i with
    | none => words.length - 1
    | some word_data =>
      if word_data.type != "word" then
        ChunkerService.findEndLoop cfg words initial_speaker fuel (i + 1) word_count
      else if word_data.speaker_id != some initial_speaker then i - 1
      else
        if ((word_count + 1 : Int) > cfg.soft_word_limit ∧
            endsSentencePunct word_data.text = true) then
          ChunkerService._include_trailing_space_if_present i words
        else if ((word_count + 1 : Int) ≥ cfg.block_max_words) then
          ChunkerService._include_trailing_space_if_present i words
        else ChunkerService.findEndLoop cfg words initial_speaker fuel (i + 1) (word_count + 1)

/-- ChunkerService._find_block_end. The Python code keeps
    initial_speaker = None both when no word-type token remains and when
    the first word-type token has a None speaker_id; either way it
    returns len(words) - 1 before entering the loop, which the bind on
    the Option-valued speaker reproduces. -/
def ChunkerService._find_block_end (cfg : ChunkerCfg) (words : List Token)
    (start_index : Nat) : Nat :=
  match ((words.drop start_index).find? (fun w => w.type == "word")).bind Token.speaker_id with
  | none => words.length - 1
  | some s => ChunkerService.findEndLoop cfg words s (words.length - start_index) start_index 0

/-- Decimal digit character. -/
def digitChar (d : Nat) : Char := Char.ofNat (48 + d)

/-- Decimal digits of n (fuel-based; fuel n + 1 suffices). -/
def natDigitsAux : Nat → Nat → List Char
  | 0, _ => []
  | fuel + 1, n =>
    if n < 10 then [digitChar n]
    else natDigitsAux fuel (n / 10) ++ [digitChar (n % 10)]

/-- Python format spec 03d: decimal digits left-padded with zeros to
    width at least 3. -/
def natPad3 (n : Nat) : String :=
  let ds := natDigitsAux (n + 1) n
  ⟨List.replicate (3 - ds.length) '0' ++ ds⟩

/-- A block emitted by the chunker. -/
structure Block where
  block_id : String
  speaker : String
  start_time : ℚ
  end_time : ℚ
  text : String
  words : List Token
  deriving DecidableEq, Repr

/-- ChunkerService._create_block_object: discard the candidate when it
    holds no word-type token or its concatenated text strips to empty.
    The head and last reads mirror word_list at positions 0 and -1 and are
    always in range when the filter below is non-empty. -/
def ChunkerService._create_block_object (word_list : List Token) (block_id : Nat) :
    Option Block :=
  let actual_words := word_list.filter (fun w => w.type == "word")
  if actual_words.isEmpty then none
  else
    let full_text := pyStrip ⟨(word_list.map (fun w => w.text.data)).flatten⟩
    if full_text = "" then none
    else
      match word_list.head?, word_list.getLast?, actual_words.head? with
      | some first_w, some last_w, some first_actual =>
        some { block_id := "block_" ++ natPad3 block_id,
               speaker := first_actual.speaker_id.getD "unknown",
               start_time := first_w.start, end_time := last_w.end_,
               text := full_text, words := word_list }
      | _, _, _ => none

/-- The while-loop of _chunk_words_into_blocks. Fuel bounds the number of
    iterations; words.length + 1 dominates it because the cursor advances
    by at least one position per iteration. -/
def ChunkerService.chunkLoop (cfg : ChunkerCfg) (words : List Token) :
    Nat → Nat → Nat → List Block
  | 0, _, _ => []
  | fuel + 1, current_word_index, block_counter =>
    if current_word_index < words.length then
      let end_index := ChunkerService._find_block_end cfg words current_word_index
      let block_words := pySlice words current_word_index (end_index + 1)
      match ChunkerService._create_block_object block_words block_counter with
      | some block_obj =>
        block_obj :: ChunkerService.chunkLoop cfg words fuel (end_index + 1) (block_counter + 1)
      | none => ChunkerService.chunkLoop cfg words fuel (end_index + 1) block_counter
    else []

/-- ChunkerService.run on the words list of a transcript object: empty
    input short-circuits to the empty block list. -/
def ChunkerService.run (cfg : ChunkerCfg) (transcript_words : List Token) : List Block :=
  if transcript_words.isEmpty then []
  else ChunkerService.chunkLoop cfg transcript_words (transcript_words.length + 1) 0 0

/- ============ src/services/offline_indexer_service.py ============== -/

/-- One script chunk of a concept. start_word_index and end_word_index
    are absent until an indexer resolves the chunk. -/
structure ScriptChunk where
  chunk_text : Option String
  source_block_id : Option String
  start_word_index : Option Nat
  end_word_index : Option Nat
  deriving DecidableEq, Repr

/-- A concept record as it flows through the pipeline. Fields a stage has
    not produced yet are None; evaluation and recommendations are opaque
    payloads modelled as strings. -/
structure Pipeline.Concept where
  title : Option String
  title_id : Option String
  logline : Option String
  script : Option String
  script_chunks : List ScriptChunk
  evaluation : Option String
  recommendations : Option String
  status : Option String
  error_message : Option String
  deriving DecidableEq, Repr

/-- Python falsiness of an optional string: None and the empty string. -/
def pyFalsyStr : Option String → Bool
  | none => true
  | some s => s == ""

/-- The dict comprehension building block_lookup followed by .get: with
    duplicate block_ids the later entry wins, hence the search over the
    reversed list. -/
def blockLookupGet (blocks_data : List Block) (bid : String) : Option Block :=
  blocks_data.reverse.find? (fun b => b.block_id == bid)

/-- Enumerate the whitespace-split words of the chunk text, normalizing
    each one, as _find_indices_for_chunk does. -/
def enumNormalize (n : Nat) : List String → List NWord
  | [] => []
  | w :: rest => ⟨n, normalize_word w⟩ :: enumNormalize (n + 1) rest

/-- OfflineIndexerService._find_indices_for_chunk: falsy source_block_id
    or chunk_text and unknown source blocks short-circuit to None; else
    normalize both sides and delegate to the sequence matcher. -/
def OfflineIndexerService._find_indices_for_chunk (chunk : ScriptChunk)
    (blocks_data : List Block) : Option MatchResult :=
  if pyFalsyStr chunk.source_block_id || pyFalsyStr chunk.chunk_text then none
  else
    match blockLookupGet blocks_data (chunk.source_block_id.getD "") with
    | none => none
    | some source_block =>
      let normalized_block_words :=
        (source_block.words.filter (fun w => w.type != "spacing")).map
          (fun w => (⟨w.id, normalize_word w.text⟩ : NWord))
      let normalized_chunk_words := enumNormalize 0 (pySplit (chunk.chunk_text.getD ""))
      ExactSequenceMatcher.find_match normalized_chunk_words normalized_block_words

/-- The per-chunk body of OfflineIndexerService.run with the indexing
    computation abstracted as an Except-valued function: the source wraps
    the computation in try/except, an error leaves the chunk unchanged in
    place, a None result leaves it unchanged, and a result is attached via
    chunk.update. -/
def OfflineIndexerService.processChunk (f : ScriptChunk → Except String (Option MatchResult))
    (chunk : ScriptChunk) : ScriptChunk :=
  match f chunk with
  | Except.ok (some indices) =>
    { chunk with start_word_index := some indices.start_word_index,
                 end_word_index := some indices.end_word_index }
  | Except.ok none => chunk
  | Except.error _ => chunk

/-- The concept and chunk loops of OfflineIndexerService.run: every chunk
    of every concept is processed and appended in order. -/
def OfflineIndexerService.runWith (f : ScriptChunk → Except String (Option MatchResult))
    (scripts_data : List Pipeline.Concept) : List Pipeline.Concept :=
  scripts_data.map fun concept =>
    { concept with script_chunks :=
        concept.script_chunks.map (OfflineIndexerService.processChunk f) }

/-- OfflineIndexerService.run: the real per-chunk computation is total in
    the embedding, so it is injected as the never-throwing instance of the
    try/except shape above. -/
def OfflineIndexerService.run (scripts_data : List Pipeline.Concept) (blocks_data : List Block) :
    List Pipeline.Concept :=
  OfflineIndexerService.runWith
    (fun chunk => Except.ok (OfflineIndexerService._find_indices_for_chunk chunk blocks_data))
    scripts_data

/- ============ src/services/output_formatter_service.py ============= -/

/-- A script chunk in the client-facing output: text plus the rehydrated
    original ids (None when the internal id is absent from the map). -/
structure FormattedChunk where
  chunk_text : Option String
  start_word_index : Option String
  end_word_index : Option String
  deriving DecidableEq, Repr

/-- One formatted concept of the client response. The error shape of the
    Python code only populates identity fields, status and error_message;
    the success shape populates the rest. -/
structure ClientConcept where
  title : Option String
  title_id : Option String
  logline : Option String
  script : Option String
  status : String
  error_message : Option String
  duration_seconds : Option ℚ
  chunk_index_lists : List (List String)
  script_chunks : List FormattedChunk
  evaluation : Option String
  recommendations : Option String
  deriving DecidableEq, Repr

/-- The id_to_position_map dict comprehension followed by .get: position
    of the last token carrying the id (later dict writes win). -/
def lastIdxOfIdFrom (target_id : Nat) (n : Nat) : List Token → Option Nat
  | [] => none
  | t :: rest =>
    match lastIdxOfIdFrom target_id (n + 1) rest with
    | some p => some p
    | none => if t.id == target_id then some n else none

/-- Lookup of an internal id in id_to_position_map. -/
def idToPosition (all_objects_list : List Token) (target_id : Nat) : Option Nat :=
  lastIdxOfIdFrom target_id 0 all_objects_list

/-- Python round(x, 2), modelled as rounding to the nearest multiple of
    1/100 (the Python banker tie-break on floats is not modelled; no claim
    depends on tie values). -/
def round2 (q : ℚ) : ℚ := ((round (q * 100) : ℤ) : ℚ) / 100

/-- The per-chunk body of _format_single_concept: resolve both internal
    ids to positions, slice the full token list inclusively, and produce
    the duration contribution, the remapped id list, and the formatted
    chunk. None models every continue branch of the Python loop. -/
def formatChunkStep (all_objects_list : List Token) (id_map : List (Nat × String))
    (chunk : ScriptChunk) : Option (ℚ × List String × FormattedChunk) :=
  match chunk.start_word_index, chunk.end_word_index with
  | some start_word_id, some end_word_id =>
    (match idToPosition all_objects_list start_word_id,
           idToPosition all_objects_list end_word_id with
     | some start_pos, some end_pos =>
       let full_slice := pySlice all_objects_list start_pos (end_pos + 1)
       match full_slice.head?, full_slice.getLast? with
       | some first_obj, some last_obj =>
         let remapped_ids :=
           (full_slice.filter (fun obj => (id_map.lookup obj.id).isSome)).map
             (fun obj => id_map.lookup obj.id)
         some (last_obj.end_ - first_obj.start, remapped_ids.reduceOption,
           ⟨chunk.chunk_text, id_map.lookup start_word_id, id_map.lookup end_word_id⟩)
       | _, _ => none
     | _, _ => none)
  | _, _ => none

/-- The chunk loop of _format_single_concept, accumulating total duration,
    chunk_index_lists and remapped_script_chunks in order. -/
def formatChunksLoop (all_objects_list : List Token) (id_map : List (Nat × String)) :
    List ScriptChunk → ℚ × List (List String) × List FormattedChunk
  | [] => (0, [], [])
  | chunk :: rest =>
    let acc := formatChunksLoop all_objects_list id_map rest
    match formatChunkStep all_objects_list id_map chunk with
    | some r => (r.1 + acc.1, r.2.1 :: acc.2.1, r.2.2 :: acc.2.2)
    | none => acc

/-- OutputFormatterService._format_single_concept for a success concept. -/
def OutputFormatterService._format_single_concept (concept : Pipeline.Concept)
    (full_objects_transcript : List Token) (id_map : List (Nat × String)) : ClientConcept :=
  let r := formatChunksLoop full_objects_transcript id_map concept.script_chunks
  { title := concept.title, title_id := concept.title_id, logline := concept.logline,
    script := concept.script, status := "success", error_message := none,
    duration_seconds := some (round2 r.1),
    chunk_index_lists := r.2.1, script_chunks := r.2.2,
    evaluation := concept.evaluation, recommendations := concept.recommendations }

/-- OutputFormatterService.run: error concepts pass through with identity
    fields only; the rest are formatted. -/
def OutputFormatterService.run (pipeline_results : List Pipeline.Concept)
    (full_objects_transcript : List Token) (id_map : List (Nat × String)) :
    List ClientConcept :=
  pipeline_results.map fun concept =>
    if concept.status = some "error" then
      { title := concept.title, title_id := concept.title_id, logline := concept.logline,
        script := none, status := "error",
        error_message := some (concept.error_message.getD "An unknown error occurred."),
        duration_seconds := none, chunk_index_lists := [], script_chunks := [],
        evaluation := none, recommendations := none }
    else OutputFormatterService._format_single_concept concept full_objects_transcript id_map

/- ======================= pipeline_server.py ======================== -/

/-- The external text-generation collaborators used inside
    process_single_concept, abstracted at their interface boundary. Each
    may raise, which Except models. -/
structure StageOracles where
  matchBlocks : Pipeline.Concept → Except String Pipeline.Concept
  extractScript : Pipeline.Concept → Except String Pipeline.Concept
  fallbackIndex : Pipeline.Concept → Except String Pipeline.Concept
  evaluateScript : String → Except String (Option String)

/-- The stage sequence of process_single_concept inside its try block:
    block matching, script extraction, deterministic offline indexing,
    conditional LLM fallback indexing when some chunk is still unresolved,
    and evaluation when the script text is non-empty (a falsy evaluation
    result is stored as None). -/
def conceptStages (o : StageOracles) (blocks_data : List Block) (concept : Pipeline.Concept) :
    Except String Pipeline.Concept := do
  let matched_concept ← o.matchBlocks concept
  let scripted_concept ← o.extractScript matched_concept
  let indexed_concept :=
    match OfflineIndexerService.run [scripted_concept] blocks_data with
    | c :: _ => c
    | [] => scripted_concept
  let indexed_concept ←
    if indexed_concept.script_chunks.any (fun ch => ch.start_word_index.isNone) then
      o.fallbackIndex indexed_concept
    else pure indexed_concept
  let script_text := indexed_concept.script.getD ""
  if script_text ≠ "" then do
    let ev ← o.evaluateScript script_text
    pure { indexed_concept with
           evaluation := match ev with
             | some e => if e == "" then none else some e
             | none => none }
  else pure indexed_concept

/-- process_single_concept from pipeline_server.py: any exception in the
    stage sequence is caught at the unit boundary and recorded on the
    input concept as status error with its message; success marks the
    processed concept. -/
def process_single_concept (o : StageOracles) (blocks_data : List Block) (concept : Pipeline.Concept) :
    Pipeline.Concept :=
  match conceptStages o blocks_data concept with
  | Except.ok c => { c with status := some "success" }
  | Except.error e => { concept with status := some "error", error_message := some e }

/-- The thread pool completing units in an arbitrary completion order:
    the pairs (submission index, result of that unit) listed in completion
    order. Each unit result is a pure function of its own concept, which
    is the no-shared-mutable-state invariant of the design. -/
def completedPairs (o : StageOracles) (blocks_data : List Block) (concepts : List Pipeline.Concept)
    (completion_order : List Nat) : List (Nat × Pipeline.Concept) :=
  completion_order.filterMap fun i =>
    (concepts.get? i).map fun c => (i, process_single_concept o blocks_data c)

/-- The result-collection loop of generate_shorts stage 3: futures are
    awaited in submission order, i.e. the result of submission index i is
    looked up among the completed units, for i in 0..n-1. -/
def collectInSubmissionOrder (o : StageOracles) (blocks_data : List Block)
    (concepts : List Pipeline.Concept) (completion_order : List Nat) : List Pipeline.Concept :=
  (List.range concepts.length).filterMap fun i =>
    (completedPairs o blocks_data concepts completion_order).lookup i

/- =================== theorems: sequence locator ==================== -/

theorem boundaryScan_eq_find (bw : List NWord) (bt fp lp : List String) (k : Nat)
    (hk : 2 ≤ k) :
    ∀ fuel i, fuel = bt.length + 1 - k - i →
    boundaryScan bw bt fp lp k i fuel =
      ((List.range' i (bt.length + 1 - i)).find? fun j =>
          decide (j + k ≤ bt.length) && decide ((bt.drop j).take 2 = fp) &&
            decide ((bt.drop (j + (k - 2))).take 2 = lp)).bind
        (fun j => extractIds bw k j) := by
  intro fuel
  induction fuel with
  | zero =>
    intro i hi
    have hnone : ((List.range' i (bt.length + 1 - i)).find? fun j =>
        decide (j + k ≤ bt.length) && decide ((bt.drop j).take 2 = fp) &&
          decide ((bt.drop (j + (k - 2))).take 2 = lp)) = none := by
      apply List.find?_eq_none.mpr
      intro j hj
      have hj' := List.mem_range'_1.mp hj
      intro hcontra
      simp only [Bool.and_eq_true, decide_eq_true_eq] at hcontra
      exact absurd hcontra.1.1 (by omega)
    rw [hnone]
    rfl
  | succ fuel ih =>
    intro i hi
    have hik : i + k ≤ bt.length := by omega
    have hcount : bt.length + 1 - i = (bt.length - i) + 1 := by omega
    rw [hcount, List.range'_succ]
    by_cases h1 : (bt.drop i).take 2 = fp
    · by_cases h2 : (bt.drop (i + (k - 2))).take 2 = lp
      · have hp : (decide (i + k ≤ bt.length) && decide ((bt.drop i).take 2 = fp) &&
            decide ((bt.drop (i + (k - 2))).take 2 = lp)) = true := by
          simp [h1, h2, hik]
        simp only [boundaryScan, h1, h2, if_true]
        simp only [List.find?_cons, hp]
        rfl
      · have hp : (decide (i + k ≤ bt.length) && decide ((bt.drop i).take 2 = fp) &&
            decide ((bt.drop (i + (k - 2))).take 2 = lp)) = false := by
          simp [h2]
        simp only [boundaryScan, h1, h2, if_true, if_false]
        simp only [List.find?_cons, hp]
        have harith : bt.length + 1 - (i + 1) = bt.length - i := by omega
        have := ih (i + 1) (by omega)
        rw [harith] at this
        exact this
    · have hp : (decide (i + k ≤ bt.length) && decide ((bt.drop i).take 2 = fp) &&
          decide ((bt.drop (i + (k - 2))).take 2 = lp)) = false := by
        simp [h1]
      simp only [boundaryScan, h1, if_false]
      simp only [List.find?_cons, hp]
      have harith : bt.length + 1 - (i + 1) = bt.length - i := by omega
      have := ih (i + 1) (by omega)
      rw [harith] at this
      exact this

theorem find_match_eq_spec (cw bw : List NWord) (h2 : 2 ≤ cw.length) :
    ExactSequenceMatcher.find_match cw bw = SequenceLocator.find_spec cw bw := by
  match cw with
  | [] => exact absurd h2 (by simp)
  | [c] => exact absurd h2 (by simp)
  | c :: c2 :: cs =>
    cases bw with
    | nil =>
      simp [ExactSequenceMatcher.find_match, SequenceLocator.find_spec,
        List.range_succ, List.find?_cons]
    | cons b bs =>
      simp only [ExactSequenceMatcher.find_match, SequenceLocator.find_spec,
        List.isEmpty_cons, if_false, Bool.false_eq_true]
      rw [boundaryScan_eq_find (b :: bs) ((b :: bs).map NWord.text)
        (((c :: c2 :: cs).map NWord.text).take 2)
        (((c :: c2 :: cs).map NWord.text).drop ((c :: c2 :: cs).length - 2))
        (c :: c2 :: cs).length (by simp) ((((b :: bs).map NWord.text)).length + 1 -
          (c :: c2 :: cs).length) 0 (by omega)]
      rw [List.range_eq_range']
      simp

/-- Claim C4: for chunks of length k ≥ 2, find_match returns the result of
    the left-most start position i with i + k ≤ block length whose two-word
    prefix window and two-word suffix window both equal the chunk
    boundaries, with ids block i .id and block (i + k - 1) .id, no interior
    verification, and not_found when no such i exists — i.e. find_match
    agrees with the spec-words formulation find_spec. -/
theorem matcher_boundary_algorithm (chunk_words block_words : List NWord)
    (h2 : 2 ≤ chunk_words.length) :
    ExactSequenceMatcher.find_match chunk_words block_words =
      SequenceLocator.find_spec chunk_words block_words :=
  find_match_eq_spec chunk_words block_words h2

/-- Witness for matcher_boundary_algorithm at a concrete chunk and block. -/
theorem matcher_boundary_algorithm_witness :
    2 ≤ ([⟨0, "quick"⟩, ⟨1, "brown"⟩] : List NWord).length ∧
    ExactSequenceMatcher.find_match [⟨0, "quick"⟩, ⟨1, "brown"⟩]
        [⟨10, "the"⟩, ⟨11, "quick"⟩, ⟨12, "brown"⟩, ⟨13, "fox"⟩] =
      SequenceLocator.find_spec [⟨0, "quick"⟩, ⟨1, "brown"⟩]
        [⟨10, "the"⟩, ⟨11, "quick"⟩, ⟨12, "brown"⟩, ⟨13, "fox"⟩] :=
  ⟨by decide, matcher_boundary_algorithm _ _ (by decide)⟩

theorem find_range'_least (p : Nat → Bool) :
    ∀ (m i s : Nat), i ≤ s → s < i + m → p s = true → (∀ j, j < s → p j = false) →
    (List.range' i m).find? p = some s := by
  intro m
  induction m with
  | zero => intro i s h1 h2 _ _; omega
  | succ m ih =>
    intro i s h1 h2 hs hlt
    rw [List.range'_succ]
    rcases Nat.eq_or_lt_of_le h1 with heq | hlt2
    · subst heq
      simp only [List.find?_cons, hs]
    · have hpi : p i = false := hlt i hlt2
      simp only [List.find?_cons, hpi]
      exact ih (i + 1) s hlt2 (by omega) hs hlt

theorem listIndex_eq_some (t : String) :
    ∀ (l : List String) (s : Nat), l.get? s = some t → (∀ j, j < s → l.get? j ≠ some t) →
    listIndex t l = some s := by
  intro l
  induction l with
  | nil => intro s hs _; simp at hs
  | cons x xs ih =>
    intro s hs hlt
    cases s with
    | zero =>
      simp only [List.get?_cons_zero, Option.some_inj] at hs
      simp [listIndex, hs]
    | succ s =>
      have hx : ¬ x = t := by
        intro hx
        exact hlt 0 (Nat.succ_pos s) (by simp [hx])
      simp only [List.get?_cons_succ] at hs
      have := ih s hs (fun j hj => hlt (j + 1) (by omega))
      simp [listIndex, hx, this]

theorem listIndex_find_single (t : String) :
    ∀ (bw : List NWord),
    (match listIndex t (bw.map NWord.text) with
     | some i => (bw.get? i).map (fun w => (⟨w.id, w.id⟩ : MatchResult))
     | none => none) =
    (bw.find? (fun b => b.text == t)).map (fun b => (⟨b.id, b.id⟩ : MatchResult)) := by
  intro bw
  induction bw with
  | nil => rfl
  | cons b bs ih =>
    by_cases hb : b.text = t
    · simp [listIndex, List.find?_cons, hb]
    · have hb' : (b.text == t) = false := by simp [hb]
      simp only [List.map_cons, listIndex, hb, if_false, List.find?_cons, hb']
      cases h : listIndex t (bs.map NWord.text) with
      | none => simpa [h] using ih
      | some i => simpa [h] using ih

/-- Claim C9: a chunk of length 0 is not found in any block; a chunk of
    length 1 resolves to the first block position whose text equals its
    single word, that position id serving as both bounds, and to not_found
    when no position carries that text. -/
theorem matcher_small_chunks (block_words : List NWord) (c : NWord) :
    ExactSequenceMatcher.find_match [] block_words = none ∧
    ExactSequenceMatcher.find_match [c] block_words =
      (block_words.find? (fun b => b.text == c.text)).map
        (fun b => (⟨b.id, b.id⟩ : MatchResult)) := by
  constructor
  · cases block_words <;> rfl
  · cases block_words with
    | nil => rfl
    | cons b bs =>
      simpa [ExactSequenceMatcher.find_match] using listIndex_find_single c.text (b :: bs)

/-- Claim C1 (amended): feeding a chunk sliced verbatim (by normalized
    text) out of a block at position s back through find_match resolves to
    the ids of the left-most position whose locator test matches; in
    particular, when no position left of s matches, it resolves to exactly
    the original start and end ids of the slice. -/
theorem locator_round_trip (chunk_words block_words : List NWord) (s : Nat)
    (hk : 1 ≤ chunk_words.length)
    (hs : s + chunk_words.length ≤ block_words.length)
    (hslice : chunk_words.map NWord.text =
      ((block_words.map NWord.text).drop s).take chunk_words.length)
    (hfirst : ∀ j, j < s →
      matchesAt (chunk_words.map NWord.text) (block_words.map NWord.text) j = false) :
    ∃ ws we, block_words.get? s = some ws ∧
      block_words.get? (s + chunk_words.length - 1) = some we ∧
      ExactSequenceMatcher.find_match chunk_words block_words = some ⟨ws.id, we.id⟩ := by
  have hlen1 : s < block_words.length := by omega
  obtain ⟨ws, hws⟩ : ∃ ws, block_words.get? s = some ws :=
    ⟨block_words.get ⟨s, hlen1⟩, List.get?_eq_some.mpr ⟨hlen1, rfl⟩⟩
  match chunk_words, hk with
  | [c], _ =>
    refine ⟨ws, ws, hws, by simpa using hws, ?_⟩
    have hslice1 : [c.text] = ((block_words.map NWord.text).drop s).take 1 := by
      simpa using hslice
    have hbt : (block_words.map NWord.text).get? s = some c.text := by
      have h0 : (((block_words.map NWord.text).drop s).take 1).get? 0 = some c.text := by
        rw [← hslice1]; rfl
      simp only [List.get?_eq_getElem?, List.getElem?_take, if_pos Nat.zero_lt_one,
        List.getElem?_drop, Nat.add_zero] at h0
      simpa [List.get?_eq_getElem?] using h0
    have hne : ∀ j, j < s → (block_words.map NWord.text).get? j ≠ some c.text := by
      intro j hj
      have hmj := hfirst j hj
      simp [matchesAt] at hmj
      simpa using hmj
    have hidx : listIndex c.text (block_words.map NWord.text) = some s :=
      listIndex_eq_some c.text (block_words.map NWord.text) s hbt hne
    match block_words, hws with
    | b :: bs, hws =>
      have hfm : ExactSequenceMatcher.find_match [c] (b :: bs) =
          ((b :: bs).get? s).map (fun w => (⟨w.id, w.id⟩ : MatchResult)) := by
        simp only [ExactSequenceMatcher.find_match, List.isEmpty_nil, if_true, hidx]
      rw [hfm, hws]
      rfl
  | c :: c2 :: cs, _ =>
    have hlen2 : s + (c :: c2 :: cs).length - 1 < block_words.length := by
      simp only [List.length_cons] at hs ⊢; omega
    obtain ⟨we, hwe⟩ : ∃ we, block_words.get? (s + (c :: c2 :: cs).length - 1) = some we :=
      ⟨block_words.get ⟨_, hlen2⟩, List.get?_eq_some.mpr ⟨hlen2, rfl⟩⟩
    refine ⟨ws, we, hws, hwe, ?_⟩
    have hk2 : 2 ≤ (c :: c2 :: cs).length := by simp
    rw [find_match_eq_spec _ _ hk2]
    simp only [SequenceLocator.find_spec]
    have hct : ((c :: c2 :: cs).map NWord.text).length = (c :: c2 :: cs).length :=
      List.length_map _ _
    have hbt : (block_words.map NWord.text).length = block_words.length :=
      List.length_map _ _
    have hfound : ((List.range ((block_words.map NWord.text).length + 1)).find? fun j =>
        decide (j + (c :: c2 :: cs).length ≤ (block_words.map NWord.text).length) &&
          decide (((block_words.map NWord.text).drop j).take 2 =
            ((c :: c2 :: cs).map NWord.text).take 2) &&
          decide (((block_words.map NWord.text).drop (j + ((c :: c2 :: cs).length - 2))).take 2 =
            ((c :: c2 :: cs).map NWord.text).drop ((c :: c2 :: cs).length - 2))) = some s := by
      rw [List.range_eq_range']
      apply find_range'_least _ _ 0 s (Nat.zero_le s) (by omega)
      · have hpre : ((block_words.map NWord.text).drop s).take 2 =
            ((c :: c2 :: cs).map NWord.text).take 2 := by
          rw [hslice, List.take_take, Nat.min_eq_left hk2]
        have hsuf : ((block_words.map NWord.text).drop (s + ((c :: c2 :: cs).length - 2))).take 2 =
            ((c :: c2 :: cs).map NWord.text).drop ((c :: c2 :: cs).length - 2) := by
          rw [hslice, List.drop_take, List.drop_drop]
          have h1 : (c :: c2 :: cs).length - ((c :: c2 :: cs).length - 2) = 2 := by
            simp only [List.length_cons]; omega
          have h2 : s + ((c :: c2 :: cs).length - 2) = (c :: c2 :: cs).length - 2 + s := by
            omega
          rw [h1, h2]
        have h1 : s + (c :: c2 :: cs).length ≤ (block_words.map NWord.text).length := by
          rw [hbt]; exact hs
        simp only [Bool.and_eq_true, decide_eq_true_eq]
        exact ⟨⟨h1, hpre⟩, hsuf⟩
      · intro j hj
        have := hfirst j hj
        simp only [matchesAt, hct] at this
        rw [if_neg (by omega), if_neg (by omega)] at this
        simpa [hbt] using this
    rw [hfound]
    simp only [Option.some_bind, extractIds, hws, hwe]

/-- Witness for locator_round_trip: slicing positions 1 and 2 out of a
    three-word block whose earlier position does not match. -/
theorem locator_round_trip_witness :
    (∀ j, j < 1 → matchesAt (([⟨5, "c"⟩, ⟨6, "d"⟩] : List NWord).map NWord.text)
      (([⟨0, "b"⟩, ⟨1, "c"⟩, ⟨2, "d"⟩] : List NWord).map NWord.text) j = false) ∧
    (∃ ws we, ([⟨0, "b"⟩, ⟨1, "c"⟩, ⟨2, "d"⟩] : List NWord).get? 1 = some ws ∧
      ([⟨0, "b"⟩, ⟨1, "c"⟩, ⟨2, "d"⟩] : List NWord).get? (1 + 2 - 1) = some we ∧
      ExactSequenceMatcher.find_match [⟨5, "c"⟩, ⟨6, "d"⟩] [⟨0, "b"⟩, ⟨1, "c"⟩, ⟨2, "d"⟩] =
        some ⟨ws.id, we.id⟩) :=
  ⟨by decide, locator_round_trip [⟨5, "c"⟩, ⟨6, "d"⟩] [⟨0, "b"⟩, ⟨1, "c"⟩, ⟨2, "d"⟩] 1
    (by decide) (by decide) (by decide) (by decide)⟩

/-- Counterexample to claim C1 as stated: the chunk with texts a, b is the
    verbatim slice of the block at positions 2 and 3 (ids 12 and 13), yet
    find_match resolves it to the earlier occurrence at ids 10 and 11, not
    to the original ids of the slice. -/
theorem locator_round_trip_counterexample :
    ([⟨100, "a"⟩, ⟨101, "b"⟩] : List NWord).map NWord.text =
      ((([⟨10, "a"⟩, ⟨11, "b"⟩, ⟨12, "a"⟩, ⟨13, "b"⟩] : List NWord).map NWord.text).drop 2).take
        ([⟨100, "a"⟩, ⟨101, "b"⟩] : List NWord).length ∧
    ExactSequenceMatcher.find_match [⟨100, "a"⟩, ⟨101, "b"⟩]
        [⟨10, "a"⟩, ⟨11, "b"⟩, ⟨12, "a"⟩, ⟨13, "b"⟩] = some ⟨10, 11⟩ ∧
    some (⟨10, 11⟩ : MatchResult) ≠ some (⟨12, 13⟩ : MatchResult) := by decide

/- ================ theorems: id virtualization layer ================ -/

theorem buildIdMapFrom_lookup :
    ∀ (l : List RawItem) (n i : Nat) (item : RawItem) (o : String),
    l.get? i = some item → item.oid = some o →
    (buildIdMapFrom n l).lookup (n + i) = some o := by
  intro l
  induction l with
  | nil => intro n i item o h _; simp at h
  | cons x xs ih =>
    intro n i item o hget hoid
    cases i with
    | zero =>
      simp only [List.get?_cons_zero, Option.some_inj] at hget
      subst hget
      simp [buildIdMapFrom, hoid, List.lookup]
    | succ i =>
      simp only [List.get?_cons_succ] at hget
      have hrec := ih (n + 1) i item o hget hoid
      have harith : n + (i + 1) = (n + 1) + i := by omega
      cases hx : x.oid with
      | none =>
        simp only [buildIdMapFrom, hx]
        rw [harith]
        exact hrec
      | some ox =>
        simp only [buildIdMapFrom, hx]
        have hne : ((n + (i + 1) : Nat) == n) = false := by
          simp only [beq_eq_false_iff_ne]; omega
        simp only [List.lookup, hne]
        rw [harith]
        exact hrec

theorem mem_buildIdMapFrom :
    ∀ (l : List RawItem) (n i : Nat) (o : String),
    (i, o) ∈ buildIdMapFrom n l →
    ∃ j item, i = n + j ∧ l.get? j = some item ∧ item.oid = some o := by
  intro l
  induction l with
  | nil => intro n i o h; simp [buildIdMapFrom] at h
  | cons x xs ih =>
    intro n i o h
    cases hx : x.oid with
    | none =>
      simp only [buildIdMapFrom, hx] at h
      obtain ⟨j, item, rfl, hj, ho⟩ := ih (n + 1) i o h
      exact ⟨j + 1, item, by omega, by simpa using hj, ho⟩
    | some ox =>
      simp only [buildIdMapFrom, hx, List.mem_cons] at h
      rcases h with h | h
      · rw [Prod.mk.injEq] at h
        obtain ⟨rfl, rfl⟩ := h
        exact ⟨0, x, by omega, by simp, hx⟩
      · obtain ⟨j, item, rfl, hj, ho⟩ := ih (n + 1) i o h
        exact ⟨j + 1, item, by omega, by simpa using hj, ho⟩

theorem lookup_mem_pairs :
    ∀ (l : List (Nat × String)) (k : Nat) (v : String), l.lookup k = some v → (k, v) ∈ l := by
  intro l
  induction l with
  | nil => intro k v h; simp [List.lookup] at h
  | cons p ps ih =>
    intro k v h
    match p with
    | (a, b) =>
      simp only [List.lookup] at h
      split at h
      · next heq =>
        obtain rfl : b = v := by injection h
        obtain rfl : k = a := by simpa using heq
        exact List.mem_cons_self _ _
      · exact List.mem_cons_of_mem _ (ih k v h)

theorem mem_withSpacing_oid :
    ∀ (l : List RawItem) (x : RawItem), x ∈ withSpacing l → x.oid = none ∨ x ∈ l := by
  intro l
  induction l with
  | nil => intro x h; simp [withSpacing] at h
  | cons a as ih =>
    intro x h
    simp only [withSpacing, List.mem_cons] at h
    rcases h with rfl | rfl | h
    · exact Or.inr (List.mem_cons_self _ _)
    · exact Or.inl rfl
    · rcases ih x h with h1 | h1
      · exact Or.inl h1
      · exact Or.inr (List.mem_cons_of_mem _ h1)

theorem withSpacing_pairwise (l : List RawItem)
    (h : l.Pairwise (fun a b => a.oid = none ∨ a.oid ≠ b.oid)) :
    (withSpacing l).Pairwise (fun a b => a.oid = none ∨ a.oid ≠ b.oid) := by
  induction l with
  | nil => simp [withSpacing]
  | cons a as ih =>
    rw [List.pairwise_cons] at h
    obtain ⟨ha, has⟩ := h
    have hR : ∀ (u y : RawItem), y.oid = none → u.oid = none ∨ u.oid ≠ y.oid := by
      intro u y hy
      cases hu : u.oid with
      | none => exact Or.inl rfl
      | some v => exact Or.inr (by simp [hu, hy])
    simp only [withSpacing, List.pairwise_cons]
    refine ⟨?_, ?_, ih has⟩
    · intro y hy
      rcases List.mem_cons.mp hy with rfl | hy2
      · exact hR a (spaceObj a) rfl
      · rcases mem_withSpacing_oid as y hy2 with h1 | h1
        · exact hR a y h1
        · exact ha y h1
    · intro y _
      exact Or.inl rfl

theorem withSpacing_odd_oid :
    ∀ (l : List RawItem) (q : Nat) (item : RawItem),
    (withSpacing l).get? (2 * q + 1) = some item → item.oid = none := by
  intro l
  induction l with
  | nil => intro q item h; simp [withSpacing] at h
  | cons a as ih =>
    intro q item h
    cases q with
    | zero =>
      have h1 : (withSpacing (a :: as)).get? 1 = some item := by simpa using h
      simp only [withSpacing, List.get?_cons_succ, List.get?_cons_zero,
        Option.some_inj] at h1
      rw [← h1]
      rfl
    | succ q =>
      have harith : 2 * (q + 1) + 1 = ((2 * q + 1) + 1) + 1 := by omega
      rw [harith] at h
      simp only [withSpacing, List.get?_cons_succ] at h
      exact ih q item h

/-- Claim C3 (amended): for every raw transcript whose non-null original
    ids are pairwise distinct, every internal id whose original item had a
    non-null id is a key of id_map whose lookup returns exactly that
    original id, and distinct internal ids map to distinct original ids. -/
theorem dehydrate_id_map_exact (raw : List RawItem)
    (hdist : raw.Pairwise (fun a b => a.oid = none ∨ a.oid ≠ b.oid)) :
    (∀ i item o, (withSpacing raw).get? i = some item → item.oid = some o →
      ((IdMappingService.run raw).id_map).lookup i = some o) ∧
    (∀ i j oi oj, (i, oi) ∈ (IdMappingService.run raw).id_map →
      (j, oj) ∈ (IdMappingService.run raw).id_map → i ≠ j → oi ≠ oj) := by
  have hmap : (IdMappingService.run raw).id_map = buildIdMapFrom 0 (withSpacing raw) := rfl
  constructor
  · intro i item o hget hoid
    rw [hmap]
    simpa using buildIdMapFrom_lookup (withSpacing raw) 0 i item o hget hoid
  · intro i j oi oj hi hj hij
    rw [hmap] at hi hj
    obtain ⟨ji, itemi, hi0, hgi, hoi⟩ := mem_buildIdMapFrom (withSpacing raw) 0 i oi hi
    obtain ⟨jj, itemj, hj0, hgj, hoj⟩ := mem_buildIdMapFrom (withSpacing raw) 0 j oj hj
    have hpw := withSpacing_pairwise raw hdist
    rw [List.get?_eq_getElem?] at hgi hgj
    obtain ⟨hlti, hei⟩ := List.getElem?_eq_some_iff.mp hgi
    obtain ⟨hltj, hej⟩ := List.getElem?_eq_some_iff.mp hgj
    rcases Nat.lt_trichotomy ji jj with hlt | heq | hlt
    · have hRij := List.pairwise_iff_getElem.mp hpw ji jj hlti hltj hlt
      rw [hei, hej] at hRij
      rcases hRij with h0 | h0
      · exact absurd hoi (by simp [h0])
      · intro hcontra
        exact h0 (by rw [hoi, hoj, hcontra])
    · exact absurd (show i = j by omega) hij
    · have hRji := List.pairwise_iff_getElem.mp hpw jj ji hltj hlti hlt
      rw [hei, hej] at hRji
      rcases hRji with h0 | h0
      · exact absurd hoj (by simp [h0])
      · intro hcontra
        exact h0 (by rw [hoi, hoj, hcontra]) |>.elim

/-- Witness for dehydrate_id_map_exact on a two-item transcript with
    distinct original ids. -/
theorem dehydrate_id_map_exact_witness :
    (([⟨some "x", "a", 0, 1, "word", none⟩, ⟨some "y", "b", 1, 2, "word", none⟩] :
        List RawItem).Pairwise (fun a b => a.oid = none ∨ a.oid ≠ b.oid)) ∧
    ((IdMappingService.run [⟨some "x", "a", 0, 1, "word", none⟩,
        ⟨some "y", "b", 1, 2, "word", none⟩]).id_map).lookup 0 = some "x" ∧
    ("x" : String) ≠ "y" :=
  ⟨by decide,
   (dehydrate_id_map_exact
     [⟨some "x", "a", 0, 1, "word", none⟩, ⟨some "y", "b", 1, 2, "word", none⟩]
     (by decide)).1 0 ⟨some "x", "a", 0, 1, "word", none⟩ "x" (by decide) (by decide),
   (dehydrate_id_map_exact
     [⟨some "x", "a", 0, 1, "word", none⟩, ⟨some "y", "b", 1, 2, "word", none⟩]
     (by decide)).2 0 2 "x" "y" (by decide) (by decide) (by decide)⟩

/-- Counterexample to claim C3 as stated: a raw transcript whose two items
    both carry the original id x produces an id_map sending the two
    distinct internal ids 0 and 2 to the same original id, so dehydration
    is not injective for all raw transcripts. -/
theorem dehydrate_id_map_counterexample :
    ((IdMappingService.run [⟨some "x", "a", 0, 1, "word", none⟩,
        ⟨some "x", "b", 1, 2, "word", none⟩]).id_map).lookup 0 = some "x" ∧
    ((IdMappingService.run [⟨some "x", "a", 0, 1, "word", none⟩,
        ⟨some "x", "b", 1, 2, "word", none⟩]).id_map).lookup 2 = some "x" ∧
    (0 : Nat) ≠ 2 := by decide

/-- Claim C2 is contradicted by the code: dehydrating the failing input
    below (two words with a timing gap between them), the synthetic
    spacing token at internal id 1 inside the returned
    full_objects_transcript has start 1 (the preceding original token's
    end) but end 2 (the next token's start): the end-time extension
    performed while producing textual_transcript mutates the spacing
    token shared with full_transcript through list aliasing. -/
theorem dehydrate_full_spacing_mutated :
    ∃ t, (IdMappingService.run
        [⟨some "w1", "a", 0, 1, "word", some "s"⟩,
         ⟨some "w2", "b", 2, 3, "word", some "s"⟩]).full_objects_transcript.get? 1 = some t ∧
      t.type = "spacing" ∧ t.start = 1 ∧ t.end_ = 2 ∧ t.end_ ≠ 1 := by
  refine ⟨⟨1, " ", 1, 2, "spacing", some "s"⟩, rfl, rfl, rfl, rfl, by norm_num⟩

/- ================== theorems: segmentation engine ================== -/

theorem pySlice_nil {α : Type} (l : List α) (i b : Nat) (h : b ≤ i) : pySlice l i b = [] := by
  simp [pySlice, Nat.sub_eq_zero_of_le h]

theorem pySlice_cons {α : Type} (l : List α) (i e : Nat) (w : α)
    (hget : l.get? i = some w) (hie : i ≤ e) :
    pySlice l i (e + 1) = w :: pySlice l (i + 1) (e + 1) := by
  have hi : i < l.length := (List.get?_eq_some.mp hget).1
  have hd : l.drop i = w :: l.drop (i + 1) := by
    rw [List.drop_eq_getElem_cons hi]
    rw [List.get?_eq_getElem?] at hget
    have hw : l[i] = w := (List.getElem?_eq_some_iff.mp hget).2
    rw [hw]
  simp only [pySlice, hd]
  have h1 : e + 1 - i = (e - i) + 1 := by omega
  rw [h1, List.take_succ_cons]
  have h2 : e + 1 - (i + 1) = e - i := by omega
  rw [h2]

theorem include_trailing_slice (words : List Token) (i : Nat) (w : Token)
    (hget : words.get? i = some w) :
    ∃ tail, pySlice words i (ChunkerService._include_trailing_space_if_present i words + 1) =
      w :: tail ∧ ∀ x ∈ tail, x.type ≠ "word" := by
  cases h2 : words.get? (i + 1) with
  | none =>
    have hit : ChunkerService._include_trailing_space_if_present i words = i := by
      simp only [ChunkerService._include_trailing_space_if_present, h2]
    rw [hit]
    refine ⟨[], ?_, by simp⟩
    rw [pySlice_cons words i i w hget (le_refl i), pySlice_nil words (i + 1) (i + 1) (le_refl _)]
  | some w2 =>
    by_cases hsp : (w2.type == "spacing") = true
    · have hit : ChunkerService._include_trailing_space_if_present i words = i + 1 := by
        simp only [ChunkerService._include_trailing_space_if_present, h2, if_pos hsp]
      rw [hit]
      refine ⟨[w2], ?_, ?_⟩
      · rw [pySlice_cons words i (i + 1) w hget (by omega),
          pySlice_cons words (i + 1) (i + 1) w2 h2 (le_refl _),
          pySlice_nil words (i + 2) (i + 2) (le_refl _)]
      · intro x hx
        simp only [List.mem_singleton] at hx
        subst hx
        rw [show x.type = "spacing" by simpa using hsp]
        simp
    · have hit : ChunkerService._include_trailing_space_if_present i words = i := by
        simp only [ChunkerService._include_trailing_space_if_present, h2, if_neg hsp]
      rw [hit]
      refine ⟨[], ?_, by simp⟩
      rw [pySlice_cons words i i w hget (le_refl i), pySlice_nil words (i + 1) (i + 1) (le_refl _)]

theorem findEndLoop_invariant (cfg : ChunkerCfg) (words : List Token) (s : String) :
    ∀ (fuel i wc : Nat), words.length ≤ i + fuel → ((wc : Int) < cfg.block_max_words) →
    (1 ≤ i ∨ ∀ w, words.get? i = some w → w.type = "word" → w.speaker_id = some s) →
    (((wc + ((pySlice words i (ChunkerService.findEndLoop cfg words s fuel i wc + 1)).filter
        (fun w => w.type == "word")).length : Nat) : Int) ≤ cfg.block_max_words) ∧
    (∀ w ∈ pySlice words i (ChunkerService.findEndLoop cfg words s fuel i wc + 1),
      w.type = "word" → w.speaker_id = some s) := by
  intro fuel
  induction fuel with
  | zero =>
    intro i wc hfuel hwc _
    have hdrop : words.drop i = [] := List.drop_eq_nil_of_le (by omega)
    constructor
    · simp only [ChunkerService.findEndLoop, pySlice, hdrop, List.take_nil,
        List.filter_nil, List.length_nil, Nat.add_zero]
      omega
    · intro w hw
      simp only [ChunkerService.findEndLoop, pySlice, hdrop, List.take_nil] at hw
      simp at hw
  | succ fuel ih =>
    intro i wc hfuel hwc hz
    cases hget : words.get? i with
    | none =>
      have hlen : words.length ≤ i := List.get?_eq_none.mp hget
      have hdrop : words.drop i = [] := List.drop_eq_nil_of_le hlen
      constructor
      · simp only [ChunkerService.findEndLoop, hget, pySlice, hdrop, List.take_nil,
          List.filter_nil, List.length_nil, Nat.add_zero]
        omega
      · intro w hw
        simp only [ChunkerService.findEndLoop, hget, pySlice, hdrop, List.take_nil] at hw
        simp at hw
    | some w =>
      by_cases hw : (w.type != "word") = true
      · -- skip a non-word token
        have hstep : ChunkerService.findEndLoop cfg words s (fuel + 1) i wc =
            ChunkerService.findEndLoop cfg words s fuel (i + 1) wc := by
          simp only [ChunkerService.findEndLoop, hget, if_pos hw]
        rw [hstep]
        have hrec := ih (i + 1) wc (by omega) hwc (Or.inl (by omega))
        set e := ChunkerService.findEndLoop cfg words s fuel (i + 1) wc with he
        by_cases hie : i ≤ e
        · have hsl := pySlice_cons words i e w hget hie
          rw [hsl]
          have hwne : (w.type == "word") = false := by
            simpa using hw
          constructor
          · simpa [List.filter_cons, hwne] using hrec.1
          · intro x hx hxt
            rcases List.mem_cons.mp hx with rfl | hx2
            · exact absurd hxt (by simpa using hw)
            · exact hrec.2 x hx2 hxt
        · have hsl : pySlice words i (e + 1) = [] := pySlice_nil words i (e + 1) (by omega)
          rw [hsl]
          constructor
          · simp only [List.filter_nil, List.length_nil, Nat.add_zero]
            omega
          · intro x hx
            simp at hx
      · -- a word-type token
        have hwt : w.type = "word" := by
          simpa using hw
        by_cases hsk : (w.speaker_id != some s) = true
        · -- speaker mismatch: ends at i - 1
          have hstep : ChunkerService.findEndLoop cfg words s (fuel + 1) i wc = i - 1 := by
            simp only [ChunkerService.findEndLoop, hget, if_neg hw, if_pos hsk]
          rcases hz with hz1 | hz2
          · rw [hstep]
            have hsl : pySlice words i (i - 1 + 1) = [] :=
              pySlice_nil words i (i - 1 + 1) (by omega)
            rw [hsl]
            constructor
            · simp only [List.filter_nil, List.length_nil, Nat.add_zero]
              omega
            · intro x hx
              simp at hx
          · exact absurd (hz2 w hget hwt) (by simpa using hsk)
        · have hspk : w.speaker_id = some s := by simpa using hsk
          by_cases hsoft : ((wc + 1 : Int) > cfg.soft_word_limit ∧
              endsSentencePunct w.text = true)
          · -- soft-limit return
            have hstep : ChunkerService.findEndLoop cfg words s (fuel + 1) i wc =
                ChunkerService._include_trailing_space_if_present i words := by
              simp only [ChunkerService.findEndLoop, hget, if_neg hw,
                if_neg hsk, if_pos hsoft]
            rw [hstep]
            obtain ⟨tail, hsl, htail⟩ := include_trailing_slice words i w hget
            rw [hsl]
            have htailf : tail.filter (fun x => x.type == "word") = [] := by
              rw [List.filter_eq_nil_iff]
              intro x hx
              simpa using htail x hx
            constructor
            · simp only [List.filter_cons, hwt, htailf, beq_self_eq_true, if_true,
                List.length_singleton]
              push_cast
              omega
            · intro x hx hxt
              rcases List.mem_cons.mp hx with rfl | hx2
              · exact hspk
              · exact absurd hxt (htail x hx2)
          · by_cases hhard : ((wc + 1 : Int) ≥ cfg.block_max_words)
            · -- hard-limit return
              have hstep : ChunkerService.findEndLoop cfg words s (fuel + 1) i wc =
                  ChunkerService._include_trailing_space_if_present i words := by
                simp only [ChunkerService.findEndLoop, hget, if_neg hw,
                  if_neg hsk, if_neg hsoft, if_pos hhard]
              rw [hstep]
              obtain ⟨tail, hsl, htail⟩ := include_trailing_slice words i w hget
              rw [hsl]
              have htailf : tail.filter (fun x => x.type == "word") = [] := by
                rw [List.filter_eq_nil_iff]
                intro x hx
                simpa using htail x hx
              constructor
              · simp only [List.filter_cons, hwt, htailf, beq_self_eq_true, if_true,
                  List.length_singleton]
                push_cast
                omega
              · intro x hx hxt
                rcases List.mem_cons.mp hx with rfl | hx2
                · exact hspk
                · exact absurd hxt (htail x hx2)
            · -- continue counting
              have hstep : ChunkerService.findEndLoop cfg words s (fuel + 1) i wc =
                  ChunkerService.findEndLoop cfg words s fuel (i + 1) (wc + 1) := by
                simp only [ChunkerService.findEndLoop, hget, if_neg hw,
                  if_neg hsk, if_neg hsoft, if_neg hhard]
              rw [hstep]
              have hwc1 : ((wc + 1 : Nat) : Int) < cfg.block_max_words := by
                push_cast
                omega
              have hrec := ih (i + 1) (wc + 1) (by omega) hwc1 (Or.inl (by omega))
              set e := ChunkerService.findEndLoop cfg words s fuel (i + 1) (wc + 1) with he
              by_cases hie : i ≤ e
              · have hsl := pySlice_cons words i e w hget hie
                rw [hsl]
                constructor
                · have h1 := hrec.1
                  simp only [List.filter_cons, hwt, beq_self_eq_true, if_true,
                    List.length_cons]
                  push_cast at h1 ⊢
                  omega
                · intro x hx hxt
                  rcases List.mem_cons.mp hx with rfl | hx2
                  · exact hspk
                  · exact hrec.2 x hx2 hxt
              · have hsl : pySlice words i (e + 1) = [] :=
                  pySlice_nil words i (e + 1) (by omega)
                rw [hsl]
                constructor
                · simp only [List.filter_nil, List.length_nil, Nat.add_zero]
                  omega
                · intro x hx
                  simp at hx

theorem find_block_end_invariant (cfg : ChunkerCfg) (words : List Token) (start : Nat)
    (hbmw : 0 < cfg.block_max_words)
    (hnn : ∀ w ∈ words, w.type = "word" → w.speaker_id ≠ none) :
    (((pySlice words start (ChunkerService._find_block_end cfg words start + 1)).filter
        (fun w => w.type == "word")).length : Int) ≤ cfg.block_max_words ∧
    (∀ w1 ∈ pySlice words start (ChunkerService._find_block_end cfg words start + 1),
      ∀ w2 ∈ pySlice words start (ChunkerService._find_block_end cfg words start + 1),
      w1.type = "word" → w2.type = "word" → w1.speaker_id = w2.speaker_id) := by
  cases hf : (words.drop start).find? (fun w => w.type == "word") with
  | none =>
    have hnw : ∀ x ∈ words.drop start, ¬ (x.type == "word") = true :=
      List.find?_eq_none.mp hf
    have hfe : ChunkerService._find_block_end cfg words start = words.length - 1 := by
      simp only [ChunkerService._find_block_end, hf, Option.none_bind]
    rw [hfe]
    have hfilter : (pySlice words start (words.length - 1 + 1)).filter
        (fun w => w.type == "word") = [] := by
      rw [List.filter_eq_nil_iff]
      intro x hx
      exact hnw x (List.mem_of_mem_take hx)
    constructor
    · rw [hfilter]
      simp only [List.length_nil, Nat.cast_zero]
      omega
    · intro w1 h1 w2 h2 ht1 _
      exact absurd (by simpa using ht1) (hnw w1 (List.mem_of_mem_take h1))
  | some w0 =>
    have hw0d : w0 ∈ words.drop start := List.mem_of_find?_eq_some hf
    have hw0t : (w0.type == "word") = true := by simpa using List.find?_some hf
    cases hspk : w0.speaker_id with
    | none =>
      exact absurd hspk (hnn w0 (List.mem_of_mem_drop hw0d) (by simpa using hw0t))
    | some s =>
      have hfe : ChunkerService._find_block_end cfg words start =
          ChunkerService.findEndLoop cfg words s (words.length - start) start 0 := by
        simp only [ChunkerService._find_block_end, hf, Option.some_bind, hspk]
      have hstart : start < words.length := by
        by_contra hc
        push_neg at hc
        rw [List.drop_eq_nil_of_le hc] at hf
        simp at hf
      have hz : 1 ≤ start ∨ ∀ w, words.get? start = some w → w.type = "word" →
          w.speaker_id = some s := by
        right
        intro w hw hwt
        have hd : words.drop start = w :: words.drop (start + 1) := by
          rw [List.drop_eq_getElem_cons hstart]
          rw [List.get?_eq_getElem?] at hw
          rw [(List.getElem?_eq_some_iff.mp hw).2]
        rw [hd] at hf
        have hpw : (w.type == "word") = true := by simpa using hwt
        simp only [List.find?_cons, hpw, Option.some_inj] at hf
        rw [hf, hspk]
      have hinv := findEndLoop_invariant cfg words s (words.length - start) start 0
        (by omega) (by exact_mod_cast hbmw) hz
      rw [hfe]
      constructor
      · have h1 := hinv.1
        simpa using h1
      · intro w1 h1 w2 h2 ht1 ht2
        rw [hinv.2 w1 h1 ht1, hinv.2 w2 h2 ht2]

theorem create_block_words (word_list : List Token) (bid : Nat) (b : Block)
    (h : ChunkerService._create_block_object word_list bid = some b) :
    b.words = word_list := by
  simp only [ChunkerService._create_block_object] at h
  split at h
  · exact Option.noConfusion h
  · split at h
    · exact Option.noConfusion h
    · split at h
      · cases h
        rfl
      · exact Option.noConfusion h

theorem chunkLoop_invariant (cfg : ChunkerCfg) (words : List Token)
    (hbmw : 0 < cfg.block_max_words)
    (hnn : ∀ w ∈ words, w.type = "word" → w.speaker_id ≠ none) :
    ∀ (fuel cur ctr : Nat) (b : Block), b ∈ ChunkerService.chunkLoop cfg words fuel cur ctr →
    (((b.words.filter (fun w => w.type == "word")).length : Int) ≤ cfg.block_max_words) ∧
    (∀ w1 ∈ b.words, ∀ w2 ∈ b.words, w1.type = "word" → w2.type = "word" →
      w1.speaker_id = w2.speaker_id) := by
  intro fuel
  induction fuel with
  | zero => intro cur ctr b h; simp [ChunkerService.chunkLoop] at h
  | succ fuel ih =>
    intro cur ctr b h
    simp only [ChunkerService.chunkLoop] at h
    by_cases hcur : cur < words.length
    · rw [if_pos hcur] at h
      cases hc : ChunkerService._create_block_object
          (pySlice words cur (ChunkerService._find_block_end cfg words cur + 1)) ctr with
      | some b0 =>
        simp only [hc, List.mem_cons] at h
        rcases h with rfl | h
        · rw [create_block_words _ ctr b hc]
          exact find_block_end_invariant cfg words cur hbmw hnn
        · exact ih _ _ b h
      | none =>
        simp only [hc] at h
        exact ih _ _ b h
    · rw [if_neg hcur] at h
      simp at h

/-- Claim C5 (amended): for every valid configuration and every transcript
    whose word-type tokens all carry a non-null speaker_id, every block
    emitted by ChunkerService.run holds at most block_max_words word-type
    tokens, all with one speaker_id. -/
theorem chunker_limits (block_max_words : Int) (limit_frac : ℚ) (cfg : ChunkerCfg)
    (words : List Token)
    (hmk : ChunkerService.mk block_max_words limit_frac = Except.ok cfg)
    (hnn : ∀ w ∈ words, w.type = "word" → w.speaker_id ≠ none) :
    ∀ b ∈ ChunkerService.run cfg words,
      (((b.words.filter (fun w => w.type == "word")).length : Int) ≤ cfg.block_max_words) ∧
      (∀ w1 ∈ b.words, ∀ w2 ∈ b.words, w1.type = "word" → w2.type = "word" →
        w1.speaker_id = w2.speaker_id) := by
  have hbmw : 0 < cfg.block_max_words := by
    simp only [ChunkerService.mk] at hmk
    split at hmk
    · exact Except.noConfusion hmk
    · cases hmk
      simpa using by omega
  intro b hb
  simp only [ChunkerService.run] at hb
  split at hb
  · simp at hb
  · exact chunkLoop_invariant cfg words hbmw hnn _ _ _ b hb

/-- Witness for chunker_limits on a two-word single-speaker transcript. -/
theorem chunker_limits_witness :
    ChunkerService.mk 300 0 = Except.ok ⟨300, 0⟩ ∧
    (∀ w ∈ ([⟨0, "hello", 0, 1, "word", some "A"⟩, ⟨1, " ", 1, 1, "spacing", some "A"⟩,
        ⟨2, "world", 1, 2, "word", some "A"⟩] : List Token),
      w.type = "word" → w.speaker_id ≠ none) ∧
    (∀ b ∈ ChunkerService.run ⟨300, 0⟩
        [⟨0, "hello", 0, 1, "word", some "A"⟩, ⟨1, " ", 1, 1, "spacing", some "A"⟩,
         ⟨2, "world", 1, 2, "word", some "A"⟩],
      (((b.words.filter (fun w => w.type == "word")).length : Int) ≤ (300 : Int)) ∧
      (∀ w1 ∈ b.words, ∀ w2 ∈ b.words, w1.type = "word" → w2.type = "word" →
        w1.speaker_id = w2.speaker_id)) := by
  have hmk : ChunkerService.mk 300 0 = Except.ok ⟨300, 0⟩ := by
    simp [ChunkerService.mk, pyInt]
  refine ⟨hmk, by decide, ?_⟩
  exact chunker_limits 300 0 ⟨300, 0⟩ _ hmk (by decide)

/-- Counterexample to claim C5 as stated: with the valid configuration
    block_max_words = 2 and a transcript whose first word-type token has a
    null speaker_id, the engine emits a single block holding three
    word-type tokens with two distinct speaker ids, violating both limits. -/
theorem chunker_limits_counterexample :
    ChunkerService.mk 2 0 = Except.ok ⟨2, 0⟩ ∧
    (ChunkerService.run ⟨2, 0⟩
        [⟨0, "a", 0, 1, "word", none⟩, ⟨1, "b", 1, 2, "word", some "A"⟩,
         ⟨2, "c", 2, 3, "word", some "B"⟩]).map
      (fun b => ((b.words.filter (fun w => w.type == "word")).length)) = [3] ∧
    ¬ ((3 : Int) ≤ 2) ∧
    (ChunkerService.run ⟨2, 0⟩
        [⟨0, "a", 0, 1, "word", none⟩, ⟨1, "b", 1, 2, "word", some "A"⟩,
         ⟨2, "c", 2, 3, "word", some "B"⟩]).map
      (fun b => b.words.map Token.speaker_id) =
      [[none, some "A", some "B"]] := by
  refine ⟨by simp [ChunkerService.mk, pyInt], by decide, by decide, by decide⟩

/-- Claim C10: constructing the Segmentation Engine with
    block_max_words ≤ 0 fails fast with the configuration error, and with
    every successfully constructed configuration an empty word list
    segments to an empty block list rather than raising. -/
theorem chunker_error_contract (block_max_words : Int) (limit_frac : ℚ) (cfg : ChunkerCfg) :
    (block_max_words ≤ 0 →
      ChunkerService.mk block_max_words limit_frac =
        Except.error "block_max_words must be a positive integer.") ∧
    (ChunkerService.mk block_max_words limit_frac = Except.ok cfg →
      ChunkerService.run cfg [] = []) := by
  constructor
  · intro h
    simp [ChunkerService.mk, if_pos h]
  · intro _
    rfl

/-- Witness for chunker_error_contract at block_max_words -1 and 300. -/
theorem chunker_error_contract_witness :
    ChunkerService.mk (-1) 0 = Except.error "block_max_words must be a positive integer." ∧
    ChunkerService.run ⟨300, 0⟩ [] = [] :=
  ⟨(chunker_error_contract (-1) 0 ⟨1, 0⟩).1 (by norm_num),
   (chunker_error_contract 300 0 ⟨300, 0⟩).2 (by simp [ChunkerService.mk, pyInt])⟩

/- ============ theorems: deterministic indexing orchestrator ========= -/

/-- Claim C6: under any per-chunk indexing outcome (success, no result, or
    a raised exception), the orchestrator preserves every concept and every
    chunk in order, attaching indices exactly on success and leaving the
    chunk untouched otherwise; and its real per-chunk computation returns
    no result on missing or empty source_block_id or chunk_text and on an
    unknown source block, without raising. -/
theorem offline_indexer_isolation
    (f : ScriptChunk → Except String (Option MatchResult))
    (scripts_data : List Pipeline.Concept) (blocks_data : List Block) (chunk : ScriptChunk) :
    ((OfflineIndexerService.runWith f scripts_data).length = scripts_data.length) ∧
    (∀ ci c, scripts_data.get? ci = some c →
      ∃ c', (OfflineIndexerService.runWith f scripts_data).get? ci = some c' ∧
        c'.title = c.title ∧ c'.title_id = c.title_id ∧
        c'.script_chunks.length = c.script_chunks.length ∧
        (∀ j ch, c.script_chunks.get? j = some ch →
          ∃ ch', c'.script_chunks.get? j = some ch' ∧
            (∀ e, f ch = Except.error e → ch' = ch) ∧
            (f ch = Except.ok none → ch' = ch) ∧
            (∀ r, f ch = Except.ok (some r) →
              ch' = { ch with start_word_index := some r.start_word_index,
                              end_word_index := some r.end_word_index }))) ∧
    (OfflineIndexerService.run scripts_data blocks_data =
      OfflineIndexerService.runWith
        (fun ch => Except.ok (OfflineIndexerService._find_indices_for_chunk ch blocks_data))
        scripts_data) ∧
    ((chunk.source_block_id = none ∨ chunk.source_block_id = some "") →
      OfflineIndexerService._find_indices_for_chunk chunk blocks_data = none) ∧
    ((chunk.chunk_text = none ∨ chunk.chunk_text = some "") →
      OfflineIndexerService._find_indices_for_chunk chunk blocks_data = none) ∧
    (∀ bid, chunk.source_block_id = some bid → blockLookupGet blocks_data bid = none →
      OfflineIndexerService._find_indices_for_chunk chunk blocks_data = none) := by
  refine ⟨?_, ?_, rfl, ?_, ?_, ?_⟩
  · simp [OfflineIndexerService.runWith]
  · intro ci c hci
    refine ⟨{ c with script_chunks :=
        c.script_chunks.map (OfflineIndexerService.processChunk f) }, ?_, rfl, rfl, ?_, ?_⟩
    · simp only [OfflineIndexerService.runWith, List.get?_map, hci, Option.map_some']
    · simp
    · intro j ch hj
      refine ⟨OfflineIndexerService.processChunk f ch, ?_, ?_, ?_, ?_⟩
      · simp only [List.get?_map, hj, Option.map_some']
      · intro e hf
        simp [OfflineIndexerService.processChunk, hf]
      · intro hf
        simp [OfflineIndexerService.processChunk, hf]
      · intro r hf
        simp [OfflineIndexerService.processChunk, hf]
  · intro h
    have hfb : pyFalsyStr chunk.source_block_id = true := by
      rcases h with h | h <;> simp [pyFalsyStr, h]
    simp [OfflineIndexerService._find_indices_for_chunk, hfb]
  · intro h
    have hfb : pyFalsyStr chunk.chunk_text = true := by
      rcases h with h | h <;> simp [pyFalsyStr, h]
    simp [OfflineIndexerService._find_indices_for_chunk, hfb]
  · intro bid hbid hlook
    by_cases hfb : (pyFalsyStr chunk.source_block_id || pyFalsyStr chunk.chunk_text) = true
    · simp [OfflineIndexerService._find_indices_for_chunk, hfb]
    · simp only [OfflineIndexerService._find_indices_for_chunk, hbid, Option.getD_some, hlook]
      split <;> rfl

/-- Witness for offline_indexer_isolation with an oracle that throws on
    one chunk, plus the malformed-input cases at concrete chunks. -/
theorem offline_indexer_isolation_witness :
    ((OfflineIndexerService.runWith
        (fun ch => if ch.chunk_text == some "boom" then Except.error "x" else Except.ok none)
        [⟨some "T", some "t1", none, none,
          [⟨some "boom", some "b1", none, none⟩, ⟨some "hi", some "b1", none, none⟩],
          none, none, none, none⟩]).length = 1) ∧
    (∃ c', (OfflineIndexerService.runWith
        (fun ch => if ch.chunk_text == some "boom" then Except.error "x" else Except.ok none)
        [⟨some "T", some "t1", none, none,
          [⟨some "boom", some "b1", none, none⟩, ⟨some "hi", some "b1", none, none⟩],
          none, none, none, none⟩]).get? 0 = some c' ∧
      c'.title = some "T" ∧ c'.title_id = some "t1" ∧
      c'.script_chunks.length = 2 ∧ True) ∧
    (OfflineIndexerService._find_indices_for_chunk ⟨none, none, none, none⟩ [] = none) ∧
    (OfflineIndexerService._find_indices_for_chunk ⟨some "", some "b1", none, none⟩ [] = none) ∧
    (OfflineIndexerService._find_indices_for_chunk ⟨some "hello", some "bX", none, none⟩ [] =
      none) := by
  refine ⟨?_, ?_, ?_, ?_, ?_⟩
  · exact (offline_indexer_isolation _ _ [] ⟨none, none, none, none⟩).1
  · obtain ⟨c', h1, h2, h3, h4, _⟩ :=
      (offline_indexer_isolation
        (fun ch => if ch.chunk_text == some "boom" then Except.error "x" else Except.ok none)
        [⟨some "T", some "t1", none, none,
          [⟨some "boom", some "b1", none, none⟩, ⟨some "hi", some "b1", none, none⟩],
          none, none, none, none⟩] [] ⟨none, none, none, none⟩).2.1 0
        ⟨some "T", some "t1", none, none,
          [⟨some "boom", some "b1", none, none⟩, ⟨some "hi", some "b1", none, none⟩],
          none, none, none, none⟩ (by decide)
    exact ⟨c', h1, h2, h3, h4, trivial⟩
  · exact (offline_indexer_isolation (fun _ => Except.ok none) [] []
      ⟨none, none, none, none⟩).2.2.2.1 (Or.inl rfl)
  · exact (offline_indexer_isolation (fun _ => Except.ok none) [] []
      ⟨some "", some "b1", none, none⟩).2.2.2.2.1 (Or.inr rfl)
  · exact (offline_indexer_isolation (fun _ => Except.ok none) [] []
      ⟨some "hello", some "bX", none, none⟩).2.2.2.2.2 "bX" rfl rfl

/- ============= theorems: rehydration / output formatter ============ -/

theorem formatChunkStep_spec (all_objects_list : List Token) (id_map : List (Nat × String))
    (chunk : ScriptChunk) (r : ℚ × List String × FormattedChunk)
    (h : formatChunkStep all_objects_list id_map chunk = some r) :
    (∀ v ∈ r.2.1, ∃ k, id_map.lookup k = some v) ∧
    (∃ sid, r.2.2.start_word_index = id_map.lookup sid) ∧
    (∃ eid, r.2.2.end_word_index = id_map.lookup eid) := by
  cases hs : chunk.start_word_index with
  | none => simp [formatChunkStep, hs] at h
  | some start_word_id =>
  cases he : chunk.end_word_index with
  | none => simp [formatChunkStep, hs, he] at h
  | some end_word_id =>
  cases hp1 : idToPosition all_objects_list start_word_id with
  | none => simp [formatChunkStep, hs, he, hp1] at h
  | some start_pos =>
  cases hp2 : idToPosition all_objects_list end_word_id with
  | none => simp [formatChunkStep, hs, he, hp1, hp2] at h
  | some end_pos =>
  cases hh : (pySlice all_objects_list start_pos (end_pos + 1)).head? with
  | none => simp [formatChunkStep, hs, he, hp1, hp2, hh] at h
  | some first_obj =>
  cases hl : (pySlice all_objects_list start_pos (end_pos + 1)).getLast? with
  | none => simp [formatChunkStep, hs, he, hp1, hp2, hh, hl] at h
  | some last_obj =>
  simp only [formatChunkStep, hs, he, hp1, hp2, hh, hl] at h
  cases h
  refine ⟨?_, ⟨start_word_id, rfl⟩, ⟨end_word_id, rfl⟩⟩
  intro v hv
  rw [List.reduceOption_mem_iff, List.mem_map] at hv
  obtain ⟨obj, _, hlook⟩ := hv
  exact ⟨obj.id, hlook⟩

theorem formatChunksLoop_spec (all_objects_list : List Token) (id_map : List (Nat × String)) :
    ∀ chunks : List ScriptChunk,
    (∀ l ∈ (formatChunksLoop all_objects_list id_map chunks).2.1, ∀ v ∈ l,
      ∃ k, id_map.lookup k = some v) ∧
    (∀ fc ∈ (formatChunksLoop all_objects_list id_map chunks).2.2,
      (fc.start_word_index ≠ none →
        ∃ k v, fc.start_word_index = some v ∧ id_map.lookup k = some v) ∧
      (fc.end_word_index ≠ none →
        ∃ k v, fc.end_word_index = some v ∧ id_map.lookup k = some v)) := by
  intro chunks
  induction chunks with
  | nil =>
    constructor <;> intro x hx <;> simp [formatChunksLoop] at hx
  | cons ch rest ih =>
    cases hstep : formatChunkStep all_objects_list id_map ch with
    | none =>
      have h21 : (formatChunksLoop all_objects_list id_map (ch :: rest)).2.1 =
          (formatChunksLoop all_objects_list id_map rest).2.1 := by
        simp [formatChunksLoop, hstep]
      have h22 : (formatChunksLoop all_objects_list id_map (ch :: rest)).2.2 =
          (formatChunksLoop all_objects_list id_map rest).2.2 := by
        simp [formatChunksLoop, hstep]
      constructor
      · intro l hl
        rw [h21] at hl
        exact ih.1 l hl
      · intro fc hfc
        rw [h22] at hfc
        exact ih.2 fc hfc
    | some r =>
      have h21 : (formatChunksLoop all_objects_list id_map (ch :: rest)).2.1 =
          r.2.1 :: (formatChunksLoop all_objects_list id_map rest).2.1 := by
        simp [formatChunksLoop, hstep]
      have h22 : (formatChunksLoop all_objects_list id_map (ch :: rest)).2.2 =
          r.2.2 :: (formatChunksLoop all_objects_list id_map rest).2.2 := by
        simp [formatChunksLoop, hstep]
      obtain ⟨hcil, hsid, heid⟩ := formatChunkStep_spec all_objects_list id_map ch r hstep
      constructor
      · intro l hl
        rw [h21] at hl
        rcases List.mem_cons.mp hl with rfl | hl2
        · exact hcil
        · exact ih.1 l hl2
      · intro fc hfc
        rw [h22] at hfc
        rcases List.mem_cons.mp hfc with rfl | h2
        · constructor
          · intro hne
            obtain ⟨sid, hsid'⟩ := hsid
            cases hv : r.2.2.start_word_index with
            | none => exact absurd hv hne
            | some v => exact ⟨sid, v, rfl, by rw [← hsid', hv]⟩
          · intro hne
            obtain ⟨eid, heid'⟩ := heid
            cases hv : r.2.2.end_word_index with
            | none => exact absurd hv hne
            | some v => exact ⟨eid, v, rfl, by rw [← heid', hv]⟩
        · exact ih.2 fc h2

theorem formatter_run_emits (concepts : List Pipeline.Concept) (full : List Token)
    (m : List (Nat × String)) :
    ∀ res ∈ OutputFormatterService.run concepts full m,
      (∀ l ∈ res.chunk_index_lists, ∀ v ∈ l, ∃ k, m.lookup k = some v) ∧
      (∀ fc ∈ res.script_chunks,
        (fc.start_word_index ≠ none →
          ∃ k v, fc.start_word_index = some v ∧ m.lookup k = some v) ∧
        (fc.end_word_index ≠ none →
          ∃ k v, fc.end_word_index = some v ∧ m.lookup k = some v)) := by
  intro res hres
  simp only [OutputFormatterService.run, List.mem_map] at hres
  obtain ⟨concept, _, hres⟩ := hres
  by_cases hst : concept.status = some "error"
  · rw [if_pos hst] at hres
    constructor <;> intro x hx <;> rw [← hres] at hx <;> simp at hx
  · rw [if_neg hst] at hres
    rw [← hres]
    constructor
    · intro l hl v hv
      exact (formatChunksLoop_spec full m concept.script_chunks).1 l hl v hv
    · intro fc hfc
      exact (formatChunksLoop_spec full m concept.script_chunks).2 fc hfc

/-- Claim C7: no internal id assigned to a synthetic spacing token (the
    odd sequential positions) is a key of id_map, and the output formatter
    only ever emits rehydrated values obtained by a successful id_map
    lookup — internal ids absent from the map, the synthetic ones
    included, are dropped from chunk_index_lists and rehydrate to None in
    the chunk index fields rather than being emitted. -/
theorem rehydration_exclusion (raw : List RawItem) (concepts : List Pipeline.Concept) :
    (∀ i, (∃ q, i = 2 * q + 1) → ((IdMappingService.run raw).id_map).lookup i = none) ∧
    (∀ res ∈ OutputFormatterService.run concepts
        (IdMappingService.run raw).full_objects_transcript (IdMappingService.run raw).id_map,
      (∀ l ∈ res.chunk_index_lists, ∀ v ∈ l,
        ∃ k, ((IdMappingService.run raw).id_map).lookup k = some v) ∧
      (∀ fc ∈ res.script_chunks,
        (fc.start_word_index ≠ none →
          ∃ k v, fc.start_word_index = some v ∧
            ((IdMappingService.run raw).id_map).lookup k = some v) ∧
        (fc.end_word_index ≠ none →
          ∃ k v, fc.end_word_index = some v ∧
            ((IdMappingService.run raw).id_map).lookup k = some v))) := by
  constructor
  · intro i hodd
    obtain ⟨q, rfl⟩ := hodd
    cases hl : ((IdMappingService.run raw).id_map).lookup (2 * q + 1) with
    | none => rfl
    | some v =>
      have hmem : ((2 * q + 1 : Nat), v) ∈ buildIdMapFrom 0 (withSpacing raw) :=
        lookup_mem_pairs _ _ _ hl
      obtain ⟨j, item, hj0, hget, hoid⟩ :=
        mem_buildIdMapFrom (withSpacing raw) 0 (2 * q + 1) v hmem
      have hj : j = 2 * q + 1 := by omega
      subst hj
      rw [withSpacing_odd_oid raw q item hget] at hoid
      exact Option.noConfusion hoid
  · intro res hres
    exact formatter_run_emits concepts _ _ res hres

/-- Witness for rehydration_exclusion: on a two-word transcript the
    synthetic spacing id 1 is not a key of id_map, and a value emitted in
    chunk_index_lists for a resolved chunk is a successful id_map lookup. -/
theorem rehydration_exclusion_witness :
    ((IdMappingService.run
        [⟨some "w1", "hello", 0, 1, "word", some "A"⟩,
         ⟨some "w2", "world", 1, 2, "word", some "A"⟩]).id_map).lookup 1 = none ∧
    (∃ k, ((IdMappingService.run
        [⟨some "w1", "hello", 0, 1, "word", some "A"⟩,
         ⟨some "w2", "world", 1, 2, "word", some "A"⟩]).id_map).lookup k = some "w1") := by
  constructor
  · exact (rehydration_exclusion
      [⟨some "w1", "hello", 0, 1, "word", some "A"⟩,
       ⟨some "w2", "world", 1, 2, "word", some "A"⟩] []).1 1 ⟨0, rfl⟩
  · have hres : OutputFormatterService._format_single_concept
        ⟨some "T", some "t1", none, none, [⟨some "hello world", none, some 0, some 2⟩],
          none, none, some "success", none⟩
        (IdMappingService.run
          [⟨some "w1", "hello", 0, 1, "word", some "A"⟩,
           ⟨some "w2", "world", 1, 2, "word", some "A"⟩]).full_objects_transcript
        (IdMappingService.run
          [⟨some "w1", "hello", 0, 1, "word", some "A"⟩,
           ⟨some "w2", "world", 1, 2, "word", some "A"⟩]).id_map ∈
      OutputFormatterService.run
        [⟨some "T", some "t1", none, none, [⟨some "hello world", none, some 0, some 2⟩],
          none, none, some "success", none⟩]
        (IdMappingService.run
          [⟨some "w1", "hello", 0, 1, "word", some "A"⟩,
           ⟨some "w2", "world", 1, 2, "word", some "A"⟩]).full_objects_transcript
        (IdMappingService.run
          [⟨some "w1", "hello", 0, 1, "word", some "A"⟩,
           ⟨some "w2", "world", 1, 2, "word", some "A"⟩]).id_map := by
      simp [OutputFormatterService.run]
    have h2 := (rehydration_exclusion
      [⟨some "w1", "hello", 0, 1, "word", some "A"⟩,
       ⟨some "w2", "world", 1, 2, "word", some "A"⟩]
      [⟨some "T", some "t1", none, none, [⟨some "hello world", none, some 0, some 2⟩],
        none, none, some "success", none⟩]).2 _ hres
    exact h2.1 ["w1", "w2"] (by decide) "w1" (by decide)

/- ============== theorems: concurrent concept pipeline ============== -/

theorem completedPairs_lookup (o : StageOracles) (blocks_data : List Block)
    (concepts : List Pipeline.Concept) :
    ∀ (completion_order : List Nat) (i : Nat) (ci : Pipeline.Concept),
    i ∈ completion_order → concepts.get? i = some ci →
    (completedPairs o blocks_data concepts completion_order).lookup i =
      some (process_single_concept o blocks_data ci) := by
  intro completion_order
  induction completion_order with
  | nil => intro i ci hi _; simp at hi
  | cons j rest ih =>
    intro i ci hi hci
    by_cases hij : i = j
    · subst hij
      have hci' : concepts[i]? = some ci := by
        rw [← List.get?_eq_getElem?]
        exact hci
      have hcp : completedPairs o blocks_data concepts (i :: rest) =
          (i, process_single_concept o blocks_data ci) ::
            completedPairs o blocks_data concepts rest := by
        simp [completedPairs, hci']
      rw [hcp]
      simp [List.lookup]
    · have hmem : i ∈ rest := by
        rcases List.mem_cons.mp hi with h | h
        · exact absurd h hij
        · exact h
      have hne : (i == j) = false := by simp [hij]
      cases hcj : concepts.get? j with
      | none =>
        have hcj' : concepts[j]? = none := by
          rw [← List.get?_eq_getElem?]
          exact hcj
        have hcp : completedPairs o blocks_data concepts (j :: rest) =
            completedPairs o blocks_data concepts rest := by
          simp [completedPairs, hcj']
        rw [hcp]
        exact ih i ci hmem hci
      | some cj =>
        have hcj' : concepts[j]? = some cj := by
          rw [← List.get?_eq_getElem?]
          exact hcj
        have hcp : completedPairs o blocks_data concepts (j :: rest) =
            (j, process_single_concept o blocks_data cj) ::
              completedPairs o blocks_data concepts rest := by
          simp [completedPairs, hcj']
        rw [hcp]
        simp only [List.lookup, hne]
        exact ih i ci hmem hci

theorem collect_eq_map (o : StageOracles) (blocks_data : List Block)
    (concepts : List Pipeline.Concept) (completion_order : List Nat)
    (hperm : completion_order.Perm (List.range concepts.length)) :
    collectInSubmissionOrder o blocks_data concepts completion_order =
      concepts.map (process_single_concept o blocks_data) := by
  have key : ∀ (n a : Nat), a + n = concepts.length →
      ((List.range' a n).filterMap fun i =>
        (completedPairs o blocks_data concepts completion_order).lookup i) =
      (concepts.drop a).map (process_single_concept o blocks_data) := by
    intro n
    induction n with
    | zero =>
      intro a ha
      rw [List.drop_eq_nil_of_le (by omega)]
      rfl
    | succ n ihn =>
      intro a ha
      have hal : a < concepts.length := by omega
      obtain ⟨ca, hca⟩ : ∃ ca, concepts.get? a = some ca :=
        ⟨concepts.get ⟨a, hal⟩, List.get?_eq_some.mpr ⟨hal, rfl⟩⟩
      have hmem : a ∈ completion_order :=
        hperm.mem_iff.mpr (List.mem_range.mpr hal)
      have hlook := completedPairs_lookup o blocks_data concepts completion_order a ca hmem hca
      rw [List.range'_succ]
      simp only [List.filterMap_cons, hlook]
      have hdrop : concepts.drop a = ca :: concepts.drop (a + 1) := by
        rw [List.drop_eq_getElem_cons hal]
        rw [List.get?_eq_getElem?] at hca
        rw [(List.getElem?_eq_some_iff.mp hca).2]
      rw [hdrop, List.map_cons]
      congr 1
      exact ihn (a + 1) (by omega)
  have hkey := key concepts.length 0 (by omega)
  simpa [collectInSubmissionOrder, List.range_eq_range'] using hkey

/-- Claim C8: with the thread pool modelled as an arbitrary permutation of
    unit completions and the driver awaiting futures in submission order,
    when exactly one submitted concept's stage sequence raises, its
    collected result carries status error with the recorded message, every
    other concept completes with status success, and the collected list is
    the per-concept results in original submission order regardless of the
    completion order. -/
theorem pipeline_isolation_order (o : StageOracles) (blocks_data : List Block)
    (concepts : List Pipeline.Concept) (completion_order : List Nat) (k : Nat)
    (ck : Pipeline.Concept) (msg : String)
    (hperm : completion_order.Perm (List.range concepts.length))
    (hk : concepts.get? k = some ck)
    (hfail : conceptStages o blocks_data ck = Except.error msg)
    (hok : ∀ j cj, j ≠ k → concepts.get? j = some cj →
      ∃ c, conceptStages o blocks_data cj = Except.ok c) :
    (collectInSubmissionOrder o blocks_data concepts completion_order =
      concepts.map (process_single_concept o blocks_data)) ∧
    ((collectInSubmissionOrder o blocks_data concepts completion_order).length =
      concepts.length) ∧
    (∃ c, (collectInSubmissionOrder o blocks_data concepts completion_order).get? k =
        some c ∧ c.status = some "error" ∧ c.error_message = some msg) ∧
    (∀ j cj, j ≠ k → concepts.get? j = some cj →
      ∃ c, (collectInSubmissionOrder o blocks_data concepts completion_order).get? j =
        some c ∧ c.status = some "success") := by
  have hmap := collect_eq_map o blocks_data concepts completion_order hperm
  refine ⟨hmap, ?_, ?_, ?_⟩
  · rw [hmap]
    simp
  · rw [hmap]
    refine ⟨process_single_concept o blocks_data ck, ?_, ?_, ?_⟩
    · rw [List.get?_map, hk]
      rfl
    · simp [process_single_concept, hfail]
    · simp [process_single_concept, hfail]
  · intro j cj hne hj
    obtain ⟨c, hc⟩ := hok j cj hne hj
    rw [hmap]
    refine ⟨process_single_concept o blocks_data cj, ?_, ?_⟩
    · rw [List.get?_map, hj]
      rfl
    · simp [process_single_concept, hc]

/-- Witness for pipeline_isolation_order: two concepts, the second
    engineered to fail block matching, completing out of submission
    order. -/
theorem pipeline_isolation_order_witness :
    (([1, 0] : List Nat).Perm (List.range 2)) ∧
    (∃ c, (collectInSubmissionOrder
        ⟨fun c => if c.title_id == some "t1" then Except.error "boom" else Except.ok c,
         fun c => Except.ok c, fun c => Except.ok c, fun _ => Except.ok none⟩ []
        [⟨some "A", some "t0", none, none, [], none, none, none, none⟩,
         ⟨some "B", some "t1", none, none, [], none, none, none, none⟩] [1, 0]).get? 1 =
      some c ∧ c.status = some "error" ∧ c.error_message = some "boom") ∧
    (∃ c, (collectInSubmissionOrder
        ⟨fun c => if c.title_id == some "t1" then Except.error "boom" else Except.ok c,
         fun c => Except.ok c, fun c => Except.ok c, fun _ => Except.ok none⟩ []
        [⟨some "A", some "t0", none, none, [], none, none, none, none⟩,
         ⟨some "B", some "t1", none, none, [], none, none, none, none⟩] [1, 0]).get? 0 =
      some c ∧ c.status = some "success") := by
  have hok : ∀ j cj, j ≠ 1 →
      ([⟨some "A", some "t0", none, none, [], none, none, none, none⟩,
        ⟨some "B", some "t1", none, none, [], none, none, none, none⟩] :
          List Pipeline.Concept).get? j = some cj →
      ∃ c, conceptStages
        ⟨fun c => if c.title_id == some "t1" then Except.error "boom" else Except.ok c,
         fun c => Except.ok c, fun c => Except.ok c, fun _ => Except.ok none⟩ [] cj =
        Except.ok c := by
    intro j cj hne hj
    cases j with
    | zero =>
      simp only [List.get?_cons_zero, Option.some_inj] at hj
      subst hj
      exact ⟨⟨some "A", some "t0", none, none, [], none, none, none, none⟩, rfl⟩
    | succ jj =>
      cases jj with
      | zero => exact absurd rfl hne
      | succ jjj => simp at hj
  have hthm := pipeline_isolation_order
    ⟨fun c => if c.title_id == some "t1" then Except.error "boom" else Except.ok c,
     fun c => Except.ok c, fun c => Except.ok c, fun _ => Except.ok none⟩ []
    [⟨some "A", some "t0", none, none, [], none, none, none, none⟩,
     ⟨some "B", some "t1", none, none, [], none, none, none, none⟩] [1, 0] 1
    ⟨some "B", some "t1", none, none, [], none, none, none, none⟩ "boom"
    (by decide) (by decide) rfl hok
  exact ⟨by decide, hthm.2.2.1,
    hthm.2.2.2 0 ⟨some "A", some "t0", none, none, [], none, none, none, none⟩
      (by decide) (by decide)⟩
